/-
Verification of the Odyssey ECG synchronization subsystem.

This file gives a shallow embedding, in Lean 4, of the parts of the
repository that the claims concern:

  * the causal DAG data structure (`src/odyssey-core/src/store/ecg.rs`)
  * the ECG sync mini-protocol helper functions
    (`src/odyssey-core/src/network/protocol/ecg_sync/v0/mod.rs`)
  * the two-phase map CRDT (`src/odyssey-crdt/src/map/twopmap.rs`)

Modelling conventions:

  * Rust `u64` values become `Nat`; overflow is irrelevant to the claims
    except in `is_power_of_two`, where the wrapping subtraction is modelled
    with an explicit `% 2 ^ 64`.
  * `BTreeSet` becomes either a duplicate-free `List` (for `root_nodes` and
    `tips`, whose concrete contents the claims inspect) or a `Finset` (for
    `their_known`).  `BTreeMap` becomes an association list.
  * `BinaryHeap` becomes a list together with a `popMaxBy` operation that
    removes one maximal element; every claim proved here is insensitive to
    which maximal element a heap returns on ties.
  * The dependency graph of `daggy` is represented implicitly: the edges of
    the graph are exactly the parent lists of the stored headers (edges are
    only ever added, at insertion time, from the freshly inserted header's
    parent list, and every edge targets the freshly added node, so the
    `add_edges` cycle-failure branch of `insert_header` is unreachable and
    the graph is determined by the stored headers).
  * Functions that can panic (`todo!`, `expect`, `unreachable!`, bit-slice
    indexing) or whose recursion is only well-founded on acyclic graphs
    return `Option`, with `none` covering both a panic and exhaustion of an
    explicit fuel parameter.
-/

import Mathlib

namespace Odyssey

/-! ## Generic helpers -/

/-- Remove one maximal element (w.r.t. the boolean comparison `le`) from a
list, returning it and the remaining elements.  This models
`BinaryHeap::pop`: properties proved below only use the fact that the
returned element together with the rest is a permutation of the input. -/
def popMaxBy {α : Type _} (le : α → α → Bool) : List α → Option (α × List α)
  | [] => none
  | x :: xs =>
    match popMaxBy le xs with
    | none => some (x, [])
    | some (m, rest) => if le x m then some (m, x :: rest) else some (x, xs)

theorem popMaxBy_eq_none {α : Type _} (le : α → α → Bool) (l : List α) :
    popMaxBy le l = none ↔ l = [] := by
  cases l with
  | nil => simp [popMaxBy]
  | cons x xs =>
    simp only [popMaxBy]
    cases h : popMaxBy le xs with
    | none => simp
    | some p =>
      obtain ⟨m, rest⟩ := p
      by_cases hle : le x m <;> simp [hle]

/-- The element removed by `popMaxBy`, together with the remainder, is a
permutation of the input list. -/
theorem popMaxBy_perm {α : Type _} (le : α → α → Bool) :
    ∀ (l : List α) (e : α) (l' : List α),
      popMaxBy le l = some (e, l') → l.Perm (e :: l')
  | [], e, l', h => by simp [popMaxBy] at h
  | x :: xs, e, l', h => by
    simp only [popMaxBy] at h
    cases hxs : popMaxBy le xs with
    | none =>
      rw [hxs] at h
      dsimp only at h
      have hnil : xs = [] := (popMaxBy_eq_none le xs).mp hxs
      injection h with h2
      injection h2 with he hl
      subst he; subst hl; subst hnil
      exact List.Perm.refl _
    | some p =>
      obtain ⟨m, rest⟩ := p
      rw [hxs] at h
      dsimp only at h
      by_cases hle : le x m
      · rw [if_pos hle] at h
        injection h with h2
        injection h2 with he hl
        subst he; subst hl
        have ih : xs.Perm (m :: rest) := popMaxBy_perm le xs m rest hxs
        exact (ih.cons x).trans (List.Perm.swap m x rest)
      · rw [if_neg hle] at h
        injection h with h2
        injection h2 with he hl
        subst he; subst hl
        exact List.Perm.refl _

/-- Association-list lookup (models `BTreeMap::get`). -/
def lookupA {K V : Type _} [DecidableEq K] : List (K × V) → K → Option V
  | [], _ => none
  | (k, v) :: rest, key => if k = key then some v else lookupA rest key

/-- Association-list key membership (models `BTreeMap::contains_key`). -/
def containsKeyA {K V : Type _} [DecidableEq K] (l : List (K × V)) (key : K) : Bool :=
  (lookupA l key).isSome

theorem lookupA_append_right {K V : Type _} [DecidableEq K]
    (l : List (K × V)) (k : K) (v : V) (h : containsKeyA l k = false) :
    lookupA (l ++ [(k, v)]) k = some v := by
  induction l with
  | nil => simp [lookupA]
  | cons p rest ih =>
    obtain ⟨k0, v0⟩ := p
    simp only [containsKeyA, lookupA] at h ⊢
    by_cases hk : k0 = k
    · simp [hk, Option.isSome] at h
    · simp only [hk, if_false] at h ⊢
      exact ih h

/-- Collect the results of a fallible map, failing if any element fails
(models `Iterator::try_collect` and `mapM` over `Option`). -/
def tryCollect {A B : Type _} (f : A → Option B) : List A → Option (List B)
  | [] => some []
  | x :: xs =>
    match f x with
    | none => none
    | some y =>
      match tryCollect f xs with
      | none => none
      | some ys => some (y :: ys)

theorem tryCollect_eq_none_of_mem {A B : Type _} (f : A → Option B) :
    ∀ (l : List A) (x : A), x ∈ l → f x = none → tryCollect f l = none
  | [], x, hx, _ => by cases hx
  | a :: l, x, hx, hfx => by
    simp only [tryCollect]
    rcases List.mem_cons.mp hx with h | h
    · subst h; rw [hfx]
    · cases ha : f a with
      | none => rfl
      | some y => rw [tryCollect_eq_none_of_mem f l x h hfx]

theorem tryCollect_map_of_some {A B C : Type _} (f : A → Option B) (g : B → C) :
    ∀ (l : List A) (ys : List B), tryCollect f l = some ys →
      tryCollect (fun x => (f x).map g) l = some (ys.map g)
  | [], ys, h => by
    simp only [tryCollect] at h ⊢
    injection h with h; subst h; rfl
  | a :: l, ys, h => by
    simp only [tryCollect] at h ⊢
    cases ha : f a with
    | none => rw [ha] at h; exact absurd h (by simp)
    | some y =>
      rw [ha] at h
      dsimp only at h ⊢
      cases hl : tryCollect f l with
      | none => rw [hl] at h; exact absurd h (by simp)
      | some ys0 =>
        rw [hl] at h
        injection h with h; subst h
        rw [tryCollect_map_of_some f g l ys0 hl]
        rfl

theorem tryCollect_mem {A B : Type _} (f : A → Option B) :
    ∀ (l : List A) (ys : List B), tryCollect f l = some ys →
      ∀ y ∈ ys, ∃ x ∈ l, f x = some y
  | [], ys, h => by
    simp only [tryCollect] at h
    injection h with h; subst h
    intro y hy; cases hy
  | a :: l, ys, h => by
    simp only [tryCollect] at h
    cases ha : f a with
    | none => rw [ha] at h; exact absurd h (by simp)
    | some y0 =>
      rw [ha] at h
      dsimp only at h
      cases hl : tryCollect f l with
      | none => rw [hl] at h; exact absurd h (by simp)
      | some ys0 =>
        rw [hl] at h
        injection h with h; subst h
        intro y hy
        rcases List.mem_cons.mp hy with h | h
        · exact ⟨a, List.mem_cons_self a l, by rw [ha, h]⟩
        · obtain ⟨x, hx, hfx⟩ := tryCollect_mem f l ys0 hl y h
          exact ⟨x, List.mem_cons_of_mem a hx, hfx⟩

theorem lookupA_mem {K V : Type _} [DecidableEq K] :
    ∀ (l : List (K × V)) (k : K) (v : V), lookupA l k = some v → (k, v) ∈ l
  | [], k, v, h => by simp [lookupA] at h
  | (k0, v0) :: l, k, v, h => by
    simp only [lookupA] at h
    by_cases hk : k0 = k
    · rw [if_pos hk] at h
      injection h with h
      subst hk; subst h
      exact List.mem_cons_self _ _
    · rw [if_neg hk] at h
      exact List.mem_cons_of_mem _ (lookupA_mem l k v h)

theorem containsKeyA_false_of_lookupA_none {K V : Type _} [DecidableEq K]
    (l : List (K × V)) (k : K) (h : lookupA l k = none) :
    containsKeyA l k = false := by
  simp [containsKeyA, h]

/-- Enumerate list elements with indices starting at `i` (models
`Iterator::enumerate`). -/
def enumerateFrom {α : Type _} (i : Nat) : List α → List (Nat × α)
  | [] => []
  | x :: xs => (i, x) :: enumerateFrom (i + 1) xs

/-! ## The ECG DAG (`src/odyssey-core/src/store/ecg.rs`) -/

/-- The operations of the `ECGHeader` trait.  `get_header_id` is part of the
trait as used by the repository's callers (`test.rs` implements it and
`handle_received_headers` needs it to name the inserted header); the copy of
the trait in `store/ecg.rs` predates it. -/
structure ECGHeaderImpl (Header HeaderId : Type _) where
  get_parent_ids : Header → List HeaderId
  validate_header : Header → HeaderId → Bool
  get_header_id : Header → HeaderId

/-- The per-node record of `State::node_info_map` (the `graph_index` field is
subsumed by the implicit-graph representation). -/
structure NodeInfo (Header : Type _) where
  depth : Nat
  header : Header
  deriving DecidableEq

/-- The ECG `State`. -/
structure EcgState (HeaderId Header : Type _) where
  root_nodes : List HeaderId
  node_info_map : List (HeaderId × NodeInfo Header)
  tips : List HeaderId
  deriving DecidableEq

variable {HeaderId Header : Type _}

/-- `State::new`. -/
def EcgState.new : EcgState HeaderId Header :=
  { root_nodes := [], node_info_map := [], tips := [] }

/-- `State::contains`. -/
def containsNode [DecidableEq HeaderId] (s : EcgState HeaderId Header)
    (h : HeaderId) : Bool :=
  containsKeyA s.node_info_map h

/-- `State::get_header`. -/
def get_header [DecidableEq HeaderId] (s : EcgState HeaderId Header)
    (n : HeaderId) : Option Header :=
  (lookupA s.node_info_map n).map (fun i => i.header)

/-- `State::get_header_depth`. -/
def get_header_depth [DecidableEq HeaderId] (s : EcgState HeaderId Header)
    (n : HeaderId) : Option Nat :=
  (lookupA s.node_info_map n).map (fun i => i.depth)

/-- `State::get_parents`: the graph parents of a stored node are exactly the
parent ids of its header (see the module comment on the implicit graph). -/
def get_parents [DecidableEq HeaderId] (E : ECGHeaderImpl Header HeaderId)
    (s : EcgState HeaderId Header) (h : HeaderId) : Option (List HeaderId) :=
  (lookupA s.node_info_map h).map (fun i => E.get_parent_ids i.header)

/-- `State::get_parents_with_depth`: as `get_parents` but each parent is
paired with its depth; the whole result is `none` when the node is absent or
some parent has no `node_info_map` entry (the `try_collect` failure). -/
def get_parents_with_depth [DecidableEq HeaderId] (E : ECGHeaderImpl Header HeaderId)
    (s : EcgState HeaderId Header) (h : HeaderId) : Option (List (Nat × HeaderId)) :=
  match lookupA s.node_info_map h with
  | none => none
  | some info =>
    tryCollect (fun p =>
      (lookupA s.node_info_map p).map (fun pi => (pi.depth, p)))
      (E.get_parent_ids info.header)

/-- `State::get_children_with_depth`: the children of `h` are the stored
nodes whose header lists `h` as a parent, with multiplicity (one graph edge
per occurrence of `h` in the child's parent list). -/
def get_children_with_depth [DecidableEq HeaderId] (E : ECGHeaderImpl Header HeaderId)
    (s : EcgState HeaderId Header) (h : HeaderId) : Option (List (Nat × HeaderId)) :=
  match lookupA s.node_info_map h with
  | none => none
  | some _ =>
    some (s.node_info_map.flatMap (fun pr =>
      (E.get_parent_ids pr.2.header).filterMap (fun p =>
        if p = h then some (pr.2.depth, pr.1) else none)))

/-- Rust `u64::MAX`. -/
def u64MAX : Nat := 2 ^ 64 - 1

/-- The short-circuiting tips update of `insert_header`:
`parents.iter().any(|parent_id| self.tips.remove(parent_id))`.
`Iterator::any` stops at the first parent whose removal from `tips`
succeeds, so parents after it are not removed. -/
def anyRemoveTip [DecidableEq HeaderId] :
    List HeaderId → List HeaderId → Bool × List HeaderId
  | tips, [] => (false, tips)
  | tips, p :: ps =>
    if p ∈ tips then (true, tips.erase p)
    else anyRemoveTip tips ps

/-- `State::insert_header`.  Returns the `bool` result together with the
state after the call. -/
def insert_header [DecidableEq HeaderId] (E : ECGHeaderImpl Header HeaderId)
    (s : EcgState HeaderId Header) (header_id : HeaderId) (header : Header) :
    Bool × EcgState HeaderId Header :=
  -- Validate header.
  if E.validate_header header header_id = false then (false, s)
  -- Check that the header is not already in the dependency_graph.
  else if containsKeyA s.node_info_map header_id then (false, s)
  else
    match (if (E.get_parent_ids header).isEmpty then
             -- Root case: `root_nodes.insert` reports whether it was new;
             -- when the id was already present the set is unchanged.
             if header_id ∈ s.root_nodes then none
             else some ({ s with root_nodes := s.root_nodes ++ [header_id] }, 1)
           else
             match tryCollect (fun p => lookupA s.node_info_map p)
                 (E.get_parent_ids header) with
             | none => none
             | some infos =>
               some (s, ((infos.map (fun i => i.depth)).foldl min u64MAX) + 1)) with
    | none => (false, s)
    | some (s1, depth) =>
      -- Update tip if any of the parents were previously a tip.
      let tr := anyRemoveTip s1.tips (E.get_parent_ids header)
      let s2 := { s1 with
        tips := if tr.1 then tr.2 ++ [header_id] else tr.2 }
      -- Insert node; `try_insert` fails only when the key is present, which
      -- the guard above already excluded.
      if containsKeyA s2.node_info_map header_id then (false, s2)
      else
        (true, { s2 with
          node_info_map := s2.node_info_map ++ [(header_id, ⟨depth, header⟩)] })

/-! ## The ECG sync mini-protocol
(`src/odyssey-core/src/network/protocol/ecg_sync/v0/mod.rs`) -/

/-- `MAX_HAVE_HEADERS`. -/
def MAX_HAVE_HEADERS : Nat := 32
/-- `MAX_DELIVER_HEADERS`. -/
def MAX_DELIVER_HEADERS : Nat := 32

/-- `HeaderBitmap`: a 32-bit bitmap, modelled as a list of bits of length
32. -/
def HeaderBitmap := List Bool

/-- `BitSlice::get`: `none` when the index is out of bounds. -/
def bitmapGet (b : HeaderBitmap) (i : Nat) : Option Bool :=
  List.get? b i

/-- `BitSlice::set`: panics (`none`) when the index is out of bounds. -/
def bitmapSet (b : HeaderBitmap) (i : Nat) (v : Bool) : Option HeaderBitmap :=
  if i < b.length then some (List.set b i v) else none

/-- `BitSlice::fill`. -/
def bitmapFill (b : HeaderBitmap) (v : Bool) : HeaderBitmap :=
  b.map (fun _ => v)

/-- `is_power_of_two`: `0 == (x & (x.wrapping_sub(1)))` on `u64`; the
wrapping subtraction is `(x + 2 ^ 64 - 1) % 2 ^ 64`.  Note that this returns
`true` at `0`. -/
def is_power_of_two (x : Nat) : Bool :=
  0 == Nat.land x ((x + 2 ^ 64 - 1) % 2 ^ 64)

variable {HeaderId Header : Type _}

/-- The recursive worker `go` of `mark_as_known`.  The Rust recursion is
well-founded only because DAG states are acyclic; `fuel` makes the
definition total, and `none` covers both fuel exhaustion and the
`todo!("unreachable?")` panic taken when `get_parents` fails.

The source reads `let contains = their_known.insert(header_id)`, but
`BTreeSet::insert` returns `true` iff the value was NEWLY inserted, so
`contains` is the negation of what its name suggests; the embedding mirrors
the source exactly: parents are traversed when the id was already present
(`if !contains`). -/
def markGo [DecidableEq HeaderId] (E : ECGHeaderImpl Header HeaderId)
    (s : EcgState HeaderId Header) :
    Nat → Finset HeaderId → List HeaderId → Option (Finset HeaderId)
  | 0, _, _ => none
  | _ + 1, their_known, [] => some their_known
  | fuel + 1, their_known, header_id :: queue =>
    let contains : Bool := decide (header_id ∉ their_known)
    let their_known := insert header_id their_known
    if contains = false then
      match get_parents E s header_id with
      | some parents => markGo E s fuel their_known (queue ++ parents)
      | none => none
    else
      markGo E s fuel their_known queue

/-- `mark_as_known`. -/
def mark_as_known [DecidableEq HeaderId] (E : ECGHeaderImpl Header HeaderId)
    (fuel : Nat) (s : EcgState HeaderId Header) (their_known : Finset HeaderId)
    (header_id : HeaderId) : Option (Finset HeaderId) :=
  markGo E s fuel their_known [header_id]

/-- The loop body of `handle_received_have`, iterating over the enumerated
`have` list. -/
def hrhLoop [DecidableEq HeaderId] (E : ECGHeaderImpl Header HeaderId)
    (fuel : Nat) (s : EcgState HeaderId Header) :
    List (Nat × HeaderId) → Finset HeaderId → List (Nat × HeaderId) →
    HeaderBitmap →
    Option (Finset HeaderId × List (Nat × HeaderId) × HeaderBitmap)
  | [], their_known, send_queue, known_bitmap =>
    some (their_known, send_queue, known_bitmap)
  | (i, header_id) :: rest, their_known, send_queue, known_bitmap =>
    if containsNode s header_id then
      -- Record their known headers.
      match mark_as_known E fuel s their_known header_id with
      | none => none
      | some their_known =>
        -- Respond with which headers we know.
        match bitmapSet known_bitmap i true with
        | none => none
        | some known_bitmap =>
          -- If we know the header, potentially send the children.
          match get_children_with_depth E s header_id with
          | some children =>
            hrhLoop E fuel s rest their_known (send_queue ++ children) known_bitmap
          | none => none
    else
      hrhLoop E fuel s rest their_known send_queue known_bitmap

/-- `handle_received_have`.  Returns the updated
`(their_tips_remaining, their_tips, their_known, send_queue, known_bitmap)`. -/
def handle_received_have [DecidableEq HeaderId] (E : ECGHeaderImpl Header HeaderId)
    (fuel : Nat) (s : EcgState HeaderId Header) (their_tips_remaining : Nat)
    (their_tips : List HeaderId) (their_known : Finset HeaderId)
    (send_queue : List (Nat × HeaderId)) (have_ : List HeaderId)
    (known_bitmap : HeaderBitmap) :
    Option (Nat × List HeaderId × Finset HeaderId × List (Nat × HeaderId) ×
      HeaderBitmap) :=
  -- Accumulate their_tips.
  let provided_tip_c := min their_tips_remaining have_.length
  let their_tips := their_tips ++ have_.take provided_tip_c
  let their_tips_remaining := their_tips_remaining - provided_tip_c
  let known_bitmap := bitmapFill known_bitmap false
  match hrhLoop E fuel s (enumerateFrom 0 have_) their_known send_queue known_bitmap with
  | none => none
  | some (their_known, send_queue, known_bitmap) =>
    some (their_tips_remaining, their_tips, their_known, send_queue, known_bitmap)

/-- `handle_received_headers`.  The validity check in the source is commented
out, so `all_valid` is always `true`.  The source calls
`state.insert_header(header)` with the id derived from the header
(`get_header_id` in the trait as used by the callers). -/
def handle_received_headers [DecidableEq HeaderId] (E : ECGHeaderImpl Header HeaderId)
    (s : EcgState HeaderId Header) (headers : List Header) :
    Bool × EcgState HeaderId Header :=
  (true, headers.foldl (fun st h => (insert_header E st (E.get_header_id h) h).2) s)

/-- Comparison on `send_queue` entries `(depth, HeaderId)`: the derived
lexicographic `Ord` of the Rust tuple. -/
def sendLe [LinearOrder HeaderId] (a b : Nat × HeaderId) : Bool :=
  decide (a.1 < b.1 ∨ (a.1 = b.1 ∧ a.2 ≤ b.2))

/-- Entries of the probe queue: `(is_tip, depth, HeaderId, distance)`. -/
abbrev ProbeEntry (HeaderId : Type _) := Bool × Nat × HeaderId × Nat

/-- Comparison on probe-queue entries: the derived lexicographic `Ord` of the
Rust tuple, with `false < true` on `bool`. -/
def probeLe [LinearOrder HeaderId] (a b : ProbeEntry HeaderId) : Bool :=
  decide ((a.1 = false ∧ b.1 = true) ∨
    (a.1 = b.1 ∧ (a.2.1 < b.2.1 ∨
      (a.2.1 = b.2.1 ∧ (a.2.2.1 < b.2.2.1 ∨
        (a.2.2.1 = b.2.2.1 ∧ a.2.2.2 ≤ b.2.2.2))))))

/-- The recursive worker `go` of `prepare_haves`.  Returns the final `haves`
and the remaining probe queue; `none` covers fuel exhaustion and the
`todo!` panic on a failed `get_parents_with_depth`. -/
def prepHavesGo [DecidableEq HeaderId] [LinearOrder HeaderId]
    (E : ECGHeaderImpl Header HeaderId) (s : EcgState HeaderId Header)
    (their_known : Finset HeaderId) :
    Nat → List (ProbeEntry HeaderId) → List HeaderId →
    Option (List HeaderId × List (ProbeEntry HeaderId))
  | 0, _, _ => none
  | fuel + 1, queue, haves =>
    if haves.length = MAX_HAVE_HEADERS then some (haves, queue)
    else
      match popMaxBy probeLe queue with
      | none => some (haves, queue)
      | some ((_is_tip, depth, header_id, distance), queue) =>
        -- If they already know this header, they already know its ancestors.
        let skip : Bool := decide (header_id ∈ their_known)
        if skip = false then
          -- If the header is at an exponential distance (or is a child of
          -- the root node), send it with haves.
          let haves :=
            if is_power_of_two distance || decide (depth = 1) then
              haves ++ [header_id]
            else haves
          -- Add parents to queue.
          match get_parents_with_depth E s header_id with
          | some parents =>
            prepHavesGo E s their_known fuel
              (queue ++ parents.map (fun pr => (false, pr.1, pr.2, distance + 1)))
              haves
          | none => none
        else
          prepHavesGo E s their_known fuel queue haves

/-- `prepare_haves`: clears `haves` and runs the worker. -/
def prepare_haves [DecidableEq HeaderId] [LinearOrder HeaderId]
    (E : ECGHeaderImpl Header HeaderId) (fuel : Nat)
    (s : EcgState HeaderId Header) (queue : List (ProbeEntry HeaderId))
    (their_known : Finset HeaderId) :
    Option (List HeaderId × List (ProbeEntry HeaderId)) :=
  prepHavesGo E s their_known fuel queue []

/-- The recursive worker `go` of `prepare_headers`.  Returns the outgoing
headers, the remaining send queue and the updated `their_known`. -/
def prepHeadersGo [DecidableEq HeaderId] [LinearOrder HeaderId]
    (E : ECGHeaderImpl Header HeaderId) (s : EcgState HeaderId Header) :
    Nat → List (Nat × HeaderId) → Finset HeaderId → List Header →
    Option (List Header × List (Nat × HeaderId) × Finset HeaderId)
  | 0, _, _, _ => none
  | fuel + 1, send_queue, their_known, headers =>
    if headers.length = MAX_DELIVER_HEADERS then
      some (headers, send_queue, their_known)
    else
      match popMaxBy sendLe send_queue with
      | none => some (headers, send_queue, their_known)
      | some ((_depth, header_id), send_queue) =>
        -- Skip if they already know this header.
        let skip : Bool := decide (header_id ∈ their_known)
        match (if skip = false then
                 match get_header s header_id with
                 | some header =>
                   -- Send header to peer, then mark it as known by the peer.
                   match mark_as_known E (fuel + 1) s their_known header_id with
                   | some their_known => some (headers ++ [header], their_known)
                   | none => none
                 | none => none   -- todo!("unreachable?")
               else some (headers, their_known)) with
        | none => none
        | some (headers, their_known) =>
          -- Add children to queue.
          match get_children_with_depth E s header_id with
          | some children =>
            prepHeadersGo E s fuel (send_queue ++ children) their_known headers
          | none => none   -- todo!("unreachable?")

/-- `prepare_headers`: clears `headers` and runs the worker. -/
def prepare_headers [DecidableEq HeaderId] [LinearOrder HeaderId]
    (E : ECGHeaderImpl Header HeaderId) (fuel : Nat)
    (s : EcgState HeaderId Header) (send_queue : List (Nat × HeaderId))
    (their_known : Finset HeaderId) :
    Option (List Header × List (Nat × HeaderId) × Finset HeaderId) :=
  prepHeadersGo E s fuel send_queue their_known []

/-- The loop of `handle_received_known`, iterating over the enumerated
`sent_haves`.  The `expect` on `received_known.get(i)` panics (`none`) when
`i` is out of bounds. -/
def hrkLoop [DecidableEq HeaderId] (E : ECGHeaderImpl Header HeaderId)
    (fuel : Nat) (s : EcgState HeaderId Header) (received_known : HeaderBitmap) :
    List (Nat × HeaderId) → Finset HeaderId → Option (Finset HeaderId)
  | [], their_known => some their_known
  | (i, header_id) :: rest, their_known =>
    match bitmapGet received_known i with
    | none => none   -- expect("Unreachable since we're iterating...")
    | some b =>
      if b then
        match mark_as_known E fuel s their_known header_id with
        | none => none
        | some their_known => hrkLoop E fuel s received_known rest their_known
      else
        hrkLoop E fuel s received_known rest their_known

/-- `handle_received_known`. -/
def handle_received_known [DecidableEq HeaderId] (E : ECGHeaderImpl Header HeaderId)
    (fuel : Nat) (s : EcgState HeaderId Header) (their_known : Finset HeaderId)
    (sent_haves : List HeaderId) (received_known : HeaderBitmap) :
    Option (Finset HeaderId) :=
  hrkLoop E fuel s received_known (enumerateFrom 0 sent_haves) their_known

/-- The `SyncData` message (`MsgECGSyncData`). -/
structure MsgECGSyncData (HeaderId Header : Type _) where
  have_ : List HeaderId
  known : HeaderBitmap
  headers : List Header

/-- `MsgECGSyncData::is_done`: both the `have` list and the `headers` list
are empty. -/
def syncDataIsDone (m : MsgECGSyncData HeaderId Header) : Bool :=
  decide (m.have_.length = 0) && decide (m.headers.length = 0)

/-- The mutable local variables of a sync session, as threaded through
`handle_received_ecg_sync`. -/
structure SyncVars (HeaderId Header : Type _) where
  st : EcgState HeaderId Header
  their_tips_remaining : Nat
  their_tips : List HeaderId
  their_known : Finset HeaderId
  send_queue : List (Nat × HeaderId)
  queue : List (ProbeEntry HeaderId)
  haves : List HeaderId
  headers : List Header
  known_bitmap : HeaderBitmap

/-- `handle_received_ecg_sync`: the per-round processing of a received
`Sync` message, in source order: `handle_received_known` (interpreting the
bitmap against the previously sent `haves`), `handle_received_headers`,
`handle_received_have`, `prepare_headers`, `prepare_haves`. -/
def handle_received_ecg_sync [DecidableEq HeaderId] [LinearOrder HeaderId]
    (E : ECGHeaderImpl Header HeaderId) (fuel : Nat)
    (sync_msg : MsgECGSyncData HeaderId Header) (v : SyncVars HeaderId Header) :
    Option (SyncVars HeaderId Header) :=
  -- Record which headers they say they already know.
  match handle_received_known E fuel v.st v.their_known v.haves sync_msg.known with
  | none => none
  | some their_known =>
    -- Receive (and verify) the headers they sent to us.
    let st := (handle_received_headers E v.st sync_msg.headers).2
    -- Handle the haves that the peer sent to us.
    match handle_received_have E fuel st v.their_tips_remaining v.their_tips
        their_known v.send_queue sync_msg.have_ v.known_bitmap with
    | none => none
    | some (their_tips_remaining, their_tips, their_known, send_queue, known_bitmap) =>
      -- Send the headers we have.
      match prepare_headers E fuel st send_queue their_known with
      | none => none
      | some (headers, send_queue, their_known) =>
        -- Propose headers we have.
        match prepare_haves E fuel st v.queue their_known with
        | none => none
        | some (haves, queue) =>
          some { st := st, their_tips_remaining := their_tips_remaining,
                 their_tips := their_tips, their_known := their_known,
                 send_queue := send_queue, queue := queue, haves := haves,
                 headers := headers, known_bitmap := known_bitmap }

/-! ## Spec-modelled parts of the sync session

The repository snapshot contains the per-round processing
(`handle_received_ecg_sync` and its helpers, embedded above) but not the
driver modules `client.rs` / `server.rs` that it declares, nor an
implementation of `equal_dags` (`unimplemented!()` in `store/ecg.rs`).
These are modelled from the spec below. -/

/-- Modelled from the spec: `equal_dags` is `unimplemented!()` in the source;
§8 defines DAG equality as equality "as multisets of `(HeaderId, Header)`
pairs". -/
def equal_dags [DecidableEq HeaderId] [DecidableEq Header]
    (l r : EcgState HeaderId Header) : Bool :=
  decide ((Multiset.ofList (l.node_info_map.map (fun pr => (pr.1, pr.2.header)))) =
    (Multiset.ofList (r.node_info_map.map (fun pr => (pr.1, pr.2.header)))))

/-- The initial per-side session variables: the probe queue is seeded with
the side's tips as entries `(true, depth, id, 0)` (§4.3), all
other session state starts empty, and the outgoing bitmap is 32 zero
bits. -/
def initSyncVars [DecidableEq HeaderId] (s : EcgState HeaderId Header) :
    SyncVars HeaderId Header :=
  { st := s
    their_tips_remaining := 0
    their_tips := []
    their_known := ∅
    send_queue := []
    queue := s.tips.filterMap (fun t =>
      (get_header_depth s t).map (fun d => (true, d, t, 0)))
    haves := []
    headers := []
    known_bitmap := List.replicate 32 false }

/-- One later round of the session (§4.3, steps 1–8): a side handles a
received `Sync` message and emits its own `Sync` message. -/
def syncRound [DecidableEq HeaderId] [LinearOrder HeaderId]
    (E : ECGHeaderImpl Header HeaderId) (fuel : Nat)
    (msg : MsgECGSyncData HeaderId Header) (v : SyncVars HeaderId Header) :
    Option (SyncVars HeaderId Header × MsgECGSyncData HeaderId Header) :=
  match handle_received_ecg_sync E fuel msg v with
  | none => none
  | some v =>
    some (v, { have_ := v.haves, known := v.known_bitmap, headers := v.headers })

/-- Modelled from the spec: the alternating `Sync` loop after the first
`Request`/`Response` exchange.  Each side in turn processes the last
message of the other and replies; the session terminates when both
directions' most recent messages are quiescent (empty `have` and empty
`headers`, §4.3/§8 "Quiescence"). -/
def syncLoop [DecidableEq HeaderId] [LinearOrder HeaderId]
    (E : ECGHeaderImpl Header HeaderId) (fuel : Nat) :
    Nat → SyncVars HeaderId Header → SyncVars HeaderId Header →
    MsgECGSyncData HeaderId Header → MsgECGSyncData HeaderId Header →
    Option (EcgState HeaderId Header × EcgState HeaderId Header)
  | 0, _, _, _, _ => none
  | n + 1, a, b, last_a, last_b =>
    -- `last_a` is the message most recently sent by side `a` (which side
    -- `b` has yet to process), and symmetrically; side `a` speaks next.
    if syncDataIsDone last_a && syncDataIsDone last_b then some (a.st, b.st)
    else
      match syncRound E fuel last_b a with
      | none => none
      | some (a2, msg_a) =>
        match syncRound E fuel msg_a b with
        | none => none
        | some (b2, msg_b) =>
          syncLoop E fuel n a2 b2 msg_a msg_b

/-- Modelled from the spec: run a whole sync session between a client with
state `cs` and a server with state `ss` (§4.3).  The client sends
`Request { tip_count, have }`; the server absorbs it (steps 4–7 of the round
sequence; a `Request` carries no bitmap and no headers), replies with
`Response { tip_count, sync }`, the client absorbs the embedded `SyncData`
and both sides then alternate `Sync` messages until quiescent.  Returns the
two final DAG states. -/
def runSync [DecidableEq HeaderId] [LinearOrder HeaderId]
    (E : ECGHeaderImpl Header HeaderId) (fuel : Nat)
    (cs ss : EcgState HeaderId Header) :
    Option (EcgState HeaderId Header × EcgState HeaderId Header) :=
  let c0 := initSyncVars cs
  let s0 := initSyncVars ss
  -- Client: Request { tip_count, have }.
  match prepare_haves E fuel cs c0.queue c0.their_known with
  | none => none
  | some (req_have, cqueue) =>
    let c1 := { c0 with queue := cqueue, haves := req_have }
    -- Server: absorb the request.
    let s1 := { s0 with their_tips_remaining := cs.tips.length }
    match handle_received_have E fuel ss s1.their_tips_remaining s1.their_tips
        s1.their_known s1.send_queue req_have s1.known_bitmap with
    | none => none
    | some (trem, ttips, tknown, squeue, bitmap) =>
      match prepare_headers E fuel ss squeue tknown with
      | none => none
      | some (resp_headers, squeue, tknown) =>
        match prepare_haves E fuel ss s1.queue tknown with
        | none => none
        | some (resp_have, pqueue) =>
          let s2 := { s1 with
            their_tips_remaining := trem
            their_tips := ttips
            their_known := tknown
            send_queue := squeue
            queue := pqueue
            haves := resp_have
            headers := resp_headers
            known_bitmap := bitmap }
          let resp : MsgECGSyncData HeaderId Header :=
            { have_ := resp_have, known := bitmap, headers := resp_headers }
          -- Client: absorb the response's SyncData; record the server's
          -- tip count.
          let c2 := { c1 with their_tips_remaining := ss.tips.length }
          let req : MsgECGSyncData HeaderId Header :=
            { have_ := req_have, known := List.replicate 32 false, headers := [] }
          -- Alternate Sync messages until both directions are quiescent;
          -- the client speaks next.  The client's most recent message is
          -- the request, the server's the response.
          syncLoop E fuel fuel c2 s2 req resp

/-! ## The two-phase map (`src/odyssey-crdt/src/map/twopmap.rs`) -/

/-- `TwoPMap`: `map` is an `OrdMap` (association list here), `tombstones` an
`OrdSet` (duplicate-free list here). -/
structure TwoPMap (K V : Type _) where
  map : List (K × V)
  tombstones : List K
  deriving DecidableEq

/-- `TwoPMapOp`. -/
inductive TwoPMapOp (K V Op : Type _) where
  | Insert (value : V)
  | Apply (key : K) (operation : Op)
  | Delete (key : K)

/-- `TwoPMapOp::key`: the key an operation refers to (`op_time` itself for
an insert). -/
def TwoPMapOp.key {K V Op : Type _} : TwoPMapOp K V Op → K → K
  | .Insert _, op_time => op_time
  | .Apply k _, _ => k
  | .Delete k, _ => k

/-- `OrdMap::update_with` as used by the `Insert` arm: inserts the binding;
the combining closure is `unreachable!()`, so a present key panics
(`none`). -/
def updateWithA {K V : Type _} [DecidableEq K] (m : List (K × V)) (k : K)
    (v : V) : Option (List (K × V)) :=
  if containsKeyA m k then none else some (m ++ [(k, v)])

/-- `OrdMap::alter` as used by the `Apply` arm: updates the value at the
key; an absent key is `unreachable!()`, so it panics (`none`). -/
def alterA {K V : Type _} [DecidableEq K] (m : List (K × V)) (k : K)
    (f : V → V) : Option (List (K × V)) :=
  match lookupA m k with
  | none => none
  | some _ => some (m.map (fun pr => if pr.1 = k then (pr.1, f pr.2) else pr))

/-- `OrdMap::without`. -/
def withoutA {K V : Type _} [DecidableEq K] (m : List (K × V)) (k : K) :
    List (K × V) :=
  m.filter (fun pr => decide (pr.1 ≠ k))

/-- `OrdSet::update`: insert, idempotently. -/
def setUpdateA {K : Type _} [DecidableEq K] (s : List K) (k : K) : List K :=
  if k ∈ s then s else s ++ [k]

/-- `TwoPMap::apply`.  `applyV` is the `apply` of the value CRDT `V` (an
external contract), taking the causal state, the operation time and the
operation.  `none` models the `unreachable!()` panics. -/
def TwoPMap.apply {K V Op CS : Type _} [DecidableEq K]
    (applyV : CS → K → Op → V → V) (m : TwoPMap K V) (st : CS) (op_time : K)
    (op : TwoPMapOp K V Op) : Option (TwoPMap K V) :=
  -- Check if deleted.
  if (TwoPMapOp.key op op_time) ∈ m.tombstones then some m
  else
    match op with
    | .Insert value =>
      match updateWithA m.map op_time value with
      | none => none
      | some mp => some { map := mp, tombstones := m.tombstones }
    | .Apply k operation =>
      match alterA m.map k (fun v => applyV st op_time operation v) with
      | none => none
      | some mp => some { map := mp, tombstones := m.tombstones }
    | .Delete k =>
      some { map := withoutA m.map k, tombstones := setUpdateA m.tombstones k }

/-! ## A concrete header type for witnesses and counterexamples

This mirrors `TestHeader` from
`src/odyssey-core/src/network/protocol/ecg_sync/v0/test.rs`: the header
stores its own id and its parent ids, and `validate_header` always
succeeds. -/

structure TestHeader where
  header_id : Nat
  parent_ids : List Nat
  deriving DecidableEq

/-- The `ECGHeader` instance of `TestHeader`. -/
def testImpl : ECGHeaderImpl TestHeader Nat :=
  { get_parent_ids := fun h => h.parent_ids,
    validate_header := fun _ _ => true,
    get_header_id := fun h => h.header_id }

/-! ## Concrete states used by the counterexample evaluations -/

/-- The state obtained by inserting the single root header `0` into the
empty state. -/
def exRoot : EcgState Nat TestHeader :=
  (insert_header testImpl EcgState.new 0 ⟨0, []⟩).2

/-- The state holding a root `0` and its child `1`. -/
def exChain : EcgState Nat TestHeader :=
  (insert_header testImpl exRoot 1 ⟨1, [0]⟩).2

/-- The state holding roots `0` and `5` and a node `9` with parents
`[0, 5]`. -/
def exWide : EcgState Nat TestHeader :=
  (insert_header testImpl
    (insert_header testImpl exRoot 5 ⟨5, []⟩).2 9 ⟨9, [0, 5]⟩).2

/-! ## Claim theorems -/

/-- C2: the claim that `tips` always equals the set of childless nodes, and
that each accepted insert adds the new header's id to `tips`, fails on the
code.  Inserting the root header `0` into the empty state is accepted and
the new node has no children, yet `tips` stays empty: `insert_header` adds
the new id to `tips` only when some parent was previously a tip (and a root
has no parents), so the claimed invariant is already violated one step from
`State::new`. -/
theorem insert_header_root_missing_from_tips :
    (insert_header testImpl EcgState.new 0 ⟨0, []⟩).1 = true ∧
    containsNode exRoot 0 = true ∧
    get_children_with_depth testImpl exRoot 0 = some [] ∧
    exRoot.tips = [] := by
  refine ⟨rfl, rfl, ?_, rfl⟩
  decide

/-- C3: the ancestor-closure part of the claim fails on the code.  In the
two-node state `0 ← 1`, starting from the (trivially parent-closed) empty
`their_known`, `mark_as_known` of header `1` yields exactly `{1}`: header
`1` is a member whose parent `0` is present in the state but is not a
member, so the set is not closed under parents.  (`mark_as_known` reads the
result of `BTreeSet::insert` — true iff the value is new — as if it meant
"already contained", so it never walks the parents of a freshly inserted
header.) -/
theorem mark_as_known_not_parent_closed :
    mark_as_known testImpl 10 exChain ∅ 1 = some {1} ∧
    get_parents testImpl exChain 1 = some [0] ∧
    containsNode exChain 0 = true ∧
    (0 : Nat) ∉ ({1} : Finset Nat) := by
  refine ⟨?_, ?_, rfl, by decide⟩ <;> decide

/-- C4: the claim that `prepare_headers` never appends a header whose
parents are not all known or already delivered fails on the code.  In the
state with roots `0`, `5` and node `9` with parents `[0, 5]`, with
`their_known = {0}` and send queue `[(2, 9)]`, `prepare_headers` emits
header `9` first (nothing was delivered before it) although its parent `5`
is neither in `their_known` nor delivered in this session.  The code pushes
and sends any popped unknown header without checking its parents. -/
theorem prepare_headers_delivers_with_unknown_parent :
    (prepare_headers testImpl 10 exWide [(2, 9)] {0}).map (fun r => r.1) =
      some [⟨9, [0, 5]⟩] ∧
    (5 : Nat) ∈ (testImpl.get_parent_ids ⟨9, [0, 5]⟩) ∧
    (5 : Nat) ∉ ({0} : Finset Nat) ∧
    containsNode exWide 5 = true := by
  refine ⟨?_, by decide, by decide, rfl⟩
  decide

/-- C1: the sync-convergence claim fails on the code.  Take the pair with
empty common prefix where the client holds the single root header `0` and
the server is empty: the session (driver modelled from the spec, per-round
processing from the source) reaches quiescence immediately — the client's
`tips` set is empty (see the C2 counterexample), so its probe queue is
empty, its `Request` carries no haves, nothing is ever enqueued for
delivery, and both first messages are already quiescent — leaving the two
DAGs unequal as multisets of `(HeaderId, Header)` pairs. -/
theorem sync_to_quiescence_not_convergent :
    runSync testImpl 20 exRoot EcgState.new = some (exRoot, EcgState.new) ∧
    equal_dags exRoot (EcgState.new : EcgState Nat TestHeader) = false ∧
    Multiset.ofList (exRoot.node_info_map.map (fun pr => (pr.1, pr.2.header))) ≠
      Multiset.ofList
        ((EcgState.new : EcgState Nat TestHeader).node_info_map.map
          (fun pr => (pr.1, pr.2.header))) := by
  refine ⟨?_, by decide, by decide⟩
  decide

theorem lookupA_none_of_containsKeyA_false {K V : Type _} [DecidableEq K]
    (l : List (K × V)) (k : K) (h : containsKeyA l k = false) :
    lookupA l k = none := by
  simp only [containsKeyA] at h
  exact Option.not_isSome_iff_eq_none.mp (by simp [h])

theorem tryCollect_length {A B : Type _} (f : A → Option B) :
    ∀ (l : List A) (ys : List B), tryCollect f l = some ys →
      ys.length = l.length
  | [], ys, h => by
    simp only [tryCollect] at h
    injection h with h; subst h; rfl
  | a :: l, ys, h => by
    simp only [tryCollect] at h
    cases ha : f a with
    | none => rw [ha] at h; exact absurd h (by simp)
    | some y =>
      rw [ha] at h
      dsimp only at h
      cases hl : tryCollect f l with
      | none => rw [hl] at h; exact absurd h (by simp)
      | some ys0 =>
        rw [hl] at h
        injection h with h; subst h
        simp [tryCollect_length f l ys0 hl]

/-- C5: `insert_header` rejects a header that fails validation, a duplicate
id, and a header with a non-empty parent list containing a parent that is
not in `nodes`; and every rejection leaves the state unchanged. -/
theorem insert_header_rejects_and_preserves_state [DecidableEq HeaderId]
    (E : ECGHeaderImpl Header HeaderId) (s : EcgState HeaderId Header)
    (id : HeaderId) (h : Header) :
    (E.validate_header h id = false → insert_header E s id h = (false, s)) ∧
    (containsNode s id = true → insert_header E s id h = (false, s)) ∧
    (E.get_parent_ids h ≠ [] →
      (∃ p, p ∈ E.get_parent_ids h ∧ containsNode s p = false) →
      insert_header E s id h = (false, s)) ∧
    (∀ s2, insert_header E s id h = (false, s2) → s2 = s) := by
  have main : ∀ s2, insert_header E s id h = (false, s2) → s2 = s := by
    intro s2 heq
    unfold insert_header at heq
    by_cases hv : E.validate_header h id = false
    · rw [if_pos hv] at heq
      injection heq with _ h2
      exact h2.symm
    · rw [if_neg hv] at heq
      by_cases hc : containsKeyA s.node_info_map id
      · rw [if_pos hc] at heq
        injection heq with _ h2
        exact h2.symm
      · rw [if_neg hc] at heq
        by_cases hemp : (E.get_parent_ids h).isEmpty
        · rw [if_pos hemp] at heq
          by_cases hroot : id ∈ s.root_nodes
          · rw [if_pos hroot] at heq
            dsimp only at heq
            injection heq with _ h2
            exact h2.symm
          · rw [if_neg hroot] at heq
            dsimp only at heq
            rw [if_neg hc] at heq
            exact absurd (congrArg Prod.fst heq) (by simp)
        · rw [if_neg hemp] at heq
          cases htc : tryCollect (fun p => lookupA s.node_info_map p)
              (E.get_parent_ids h) with
          | none =>
            rw [htc] at heq
            dsimp only at heq
            injection heq with _ h2
            exact h2.symm
          | some infos =>
            rw [htc] at heq
            dsimp only at heq
            rw [if_neg hc] at heq
            exact absurd (congrArg Prod.fst heq) (by simp)
  refine ⟨?_, ?_, ?_, main⟩
  · intro hv
    unfold insert_header
    rw [if_pos hv]
  · intro hc
    unfold containsNode at hc
    by_cases hv : E.validate_header h id = false
    · unfold insert_header
      rw [if_pos hv]
    · unfold insert_header
      rw [if_neg hv, if_pos hc]
  · intro hne hex
    obtain ⟨p, hp, hpc⟩ := hex
    by_cases hv : E.validate_header h id = false
    · unfold insert_header
      rw [if_pos hv]
    · by_cases hc : containsKeyA s.node_info_map id
      · unfold insert_header
        rw [if_neg hv, if_pos hc]
      · have hemp : (E.get_parent_ids h).isEmpty = false := by
          cases hpe : E.get_parent_ids h with
          | nil => exact absurd hpe hne
          | cons a l => rfl
        have htc : tryCollect (fun q => lookupA s.node_info_map q)
            (E.get_parent_ids h) = none := by
          apply tryCollect_eq_none_of_mem _ _ p hp
          exact lookupA_none_of_containsKeyA_false _ _ hpc
        unfold insert_header
        rw [if_neg hv, if_neg hc,
          if_neg (show ¬((E.get_parent_ids h).isEmpty = true) by simp [hemp])]
        rw [htc]

/-- C6: whenever `insert_header` accepts, the recorded depth of the new
node — as returned by `get_header_depth` on the new state — is `1` for an
empty parent list and `1 + min(parent depths)` otherwise.  The strict
boundedness hypothesis requires every stored depth to be below `u64::MAX`:
exactly under that bound the source's `u64` computation `depth + 1` (whose
fold over parent depths starts at `u64::MAX`) cannot wrap, so the unbounded
model agrees with the program. -/
theorem insert_header_depth_formula [DecidableEq HeaderId]
    (E : ECGHeaderImpl Header HeaderId) (s : EcgState HeaderId Header)
    (id : HeaderId) (h : Header) (s2 : EcgState HeaderId Header)
    (hb : ∀ pr ∈ s.node_info_map, pr.2.depth < u64MAX)
    (hacc : insert_header E s id h = (true, s2)) :
    (E.get_parent_ids h = [] → get_header_depth s2 id = some 1) ∧
    (E.get_parent_ids h ≠ [] →
      ∃ ds, tryCollect (fun p => get_header_depth s p) (E.get_parent_ids h) =
          some ds ∧
        ∃ m, ds.min? = some m ∧ get_header_depth s2 id = some (m + 1)) := by
  unfold insert_header at hacc
  by_cases hv : E.validate_header h id = false
  · rw [if_pos hv] at hacc
    exact absurd (congrArg Prod.fst hacc) (by simp)
  rw [if_neg hv] at hacc
  by_cases hc : containsKeyA s.node_info_map id
  · rw [if_pos hc] at hacc
    exact absurd (congrArg Prod.fst hacc) (by simp)
  rw [if_neg hc] at hacc
  constructor
  · -- Root case.
    intro hpe
    have hemp : (E.get_parent_ids h).isEmpty = true := by rw [hpe]; rfl
    rw [if_pos hemp] at hacc
    by_cases hroot : id ∈ s.root_nodes
    · rw [if_pos hroot] at hacc
      exact absurd (congrArg Prod.fst hacc) (by simp)
    · rw [if_neg hroot] at hacc
      dsimp only at hacc
      rw [if_neg hc] at hacc
      have hs2 := congrArg Prod.snd hacc
      dsimp only at hs2
      rw [← hs2]
      unfold get_header_depth
      rw [lookupA_append_right _ _ _ (by simpa [containsKeyA] using hc)]
      rfl
  · -- Non-root case.
    intro hne
    have hemp : (E.get_parent_ids h).isEmpty = false := by
      cases hpe : E.get_parent_ids h with
      | nil => exact absurd hpe hne
      | cons a l => rfl
    rw [if_neg (show ¬((E.get_parent_ids h).isEmpty = true) by simp [hemp])]
      at hacc
    cases htc : tryCollect (fun p => lookupA s.node_info_map p)
        (E.get_parent_ids h) with
    | none =>
      rw [htc] at hacc
      dsimp only at hacc
      exact absurd (congrArg Prod.fst hacc) (by simp)
    | some infos =>
      rw [htc] at hacc
      dsimp only at hacc
      rw [if_neg hc] at hacc
      have hs2 := congrArg Prod.snd hacc
      dsimp only at hs2
      refine ⟨infos.map (fun i => i.depth), ?_, ?_⟩
      · have := tryCollect_map_of_some
          (fun p => lookupA s.node_info_map p) (fun i => i.depth)
          (E.get_parent_ids h) infos htc
        exact this
      · -- The fold with initial value u64MAX computes the minimum.
        have hlen : infos.length = (E.get_parent_ids h).length :=
          tryCollect_length _ _ _ htc
        have hinfos_ne : infos ≠ [] := by
          intro hnil
          rw [hnil] at hlen
          cases hpe : E.get_parent_ids h with
          | nil => exact hne hpe
          | cons a l => rw [hpe] at hlen; simp at hlen
        obtain ⟨d, rest, hcons⟩ := List.exists_cons_of_ne_nil
          (fun hnil => hinfos_ne (List.map_eq_nil_iff.mp hnil) :
            infos.map (fun i => i.depth) ≠ [])
        have hd_le : d ≤ u64MAX := le_of_lt (by
          have hd_mem : d ∈ infos.map (fun i => i.depth) := by
            rw [hcons]; exact List.mem_cons_self _ _
          obtain ⟨i, hi, hdi⟩ := List.mem_map.mp hd_mem
          obtain ⟨p, _, hlp⟩ := tryCollect_mem _ _ _ htc i hi
          have hthis : i.depth < u64MAX := hb _ (lookupA_mem _ _ _ hlp)
          rw [← hdi]
          exact hthis)
        refine ⟨rest.foldl min d, ?_, ?_⟩
        · rw [hcons]; rfl
        · rw [← hs2]
          unfold get_header_depth
          rw [lookupA_append_right _ _ _ (by simpa [containsKeyA] using hc)]
          rw [hcons]
          simp only [List.foldl_cons, Option.map_some]
          rw [min_eq_right hd_le]
          rfl

/-- C5 witness: inserting a header with a missing parent into the one-node
state is rejected and leaves the state unchanged. -/
theorem insert_header_rejects_witness :
    insert_header testImpl exRoot 9 ⟨9, [7]⟩ = (false, exRoot) :=
  (insert_header_rejects_and_preserves_state testImpl exRoot 9 ⟨9, [7]⟩).2.2.1
    (by decide) ⟨7, by decide, by decide⟩

/-- C6 witness: the root header gets depth `1` and the child of the root
gets depth `1 + min [1]`. -/
theorem insert_header_depth_formula_witness :
    get_header_depth exRoot 0 = some 1 ∧
    (∃ ds, tryCollect (fun p => get_header_depth exRoot p)
        (testImpl.get_parent_ids ⟨1, [0]⟩) = some ds ∧
      ∃ m, ds.min? = some m ∧ get_header_depth exChain 1 = some (m + 1)) :=
  ⟨(insert_header_depth_formula testImpl EcgState.new 0 ⟨0, []⟩ exRoot
      (by decide) (by decide)).1 (by decide),
   (insert_header_depth_formula testImpl exRoot 1 ⟨1, [0]⟩ exChain
      (by decide) (by decide)).2 (by decide)⟩

/-! ## Lemmas on the two-phase map operations -/

theorem lookupA_append {K V : Type _} [DecidableEq K] :
    ∀ (l1 l2 : List (K × V)) (k : K),
      lookupA (l1 ++ l2) k =
        (match lookupA l1 k with
         | some v => some v
         | none => lookupA l2 k)
  | [], l2, k => by simp [lookupA]
  | (k0, v0) :: l1, l2, k => by
    simp only [List.cons_append, lookupA]
    by_cases hk : k0 = k
    · rw [if_pos hk, if_pos hk]
    · rw [if_neg hk, if_neg hk]
      exact lookupA_append l1 l2 k

theorem containsKeyA_append_single {K V : Type _} [DecidableEq K]
    (l : List (K × V)) (k0 : K) (v0 : V) (k : K) :
    containsKeyA (l ++ [(k0, v0)]) k = true ↔
      (containsKeyA l k = true ∨ k0 = k) := by
  simp only [containsKeyA, lookupA_append]
  cases h : lookupA l k with
  | some v => simp
  | none =>
    simp only [lookupA]
    by_cases hk : k0 = k
    · simp [hk]
    · simp [hk, lookupA]

theorem containsKeyA_map_keys {K V : Type _} [DecidableEq K]
    (g : K × V → K × V) (hg : ∀ pr, (g pr).1 = pr.1) :
    ∀ (l : List (K × V)) (k : K),
      containsKeyA (l.map g) k = containsKeyA l k
  | [], k => rfl
  | (k0, v0) :: l, k => by
    simp only [List.map_cons, containsKeyA, lookupA]
    have h1 := hg (k0, v0)
    cases hgv : g (k0, v0) with
    | mk ga gb =>
      rw [hgv] at h1
      dsimp only at h1
      subst h1
      by_cases hk : ga = k
      · rw [if_pos hk, if_pos hk]
        rfl
      · rw [if_neg hk, if_neg hk]
        exact containsKeyA_map_keys g hg l k

theorem containsKeyA_withoutA {K V : Type _} [DecidableEq K] :
    ∀ (l : List (K × V)) (k k2 : K),
      containsKeyA (withoutA l k) k2 = true →
        (containsKeyA l k2 = true ∧ k2 ≠ k)
  | [], k, k2, h => by simp [withoutA, containsKeyA, lookupA] at h
  | (k0, v0) :: l, k, k2, h => by
    simp only [withoutA, List.filter_cons] at h
    by_cases hk0 : k0 = k
    · rw [if_neg (by simp [hk0])] at h
      obtain ⟨hmem, hne⟩ := containsKeyA_withoutA l k k2 h
      constructor
      · simp only [containsKeyA, lookupA]
        rw [if_neg (by rw [hk0]; exact fun he => hne he.symm)]
        exact hmem
      · exact hne
    · rw [if_pos (by simp [hk0])] at h
      simp only [containsKeyA, lookupA] at h ⊢
      by_cases hk : k0 = k2
      · rw [if_pos hk] at h ⊢
        refine ⟨rfl, ?_⟩
        rw [← hk]
        exact fun he => hk0 he
      · rw [if_neg hk] at h ⊢
        exact containsKeyA_withoutA l k k2 h

theorem mem_setUpdateA {K : Type _} [DecidableEq K] (s : List K) (k k2 : K) :
    k2 ∈ setUpdateA s k ↔ (k2 ∈ s ∨ k2 = k) := by
  unfold setUpdateA
  by_cases hk : k ∈ s
  · rw [if_pos hk]
    constructor
    · exact fun h => Or.inl h
    · rintro (h | h)
      · exact h
      · rw [h]; exact hk
  · rw [if_neg hk]
    simp

/-- C10: an operation on a tombstoned key leaves the two-phase map
unchanged; a deleted key (tombstoned and absent from `map`) can never be
reinserted nor lose its tombstone under any `apply` that returns; and
`apply` preserves disjointness of the keys of `map` and `tombstones`. -/
theorem twopmap_apply_delete_wins {K V Op CS : Type _} [DecidableEq K]
    (applyV : CS → K → Op → V → V) (m : TwoPMap K V) (st : CS) (t : K)
    (op : TwoPMapOp K V Op) :
    (TwoPMapOp.key op t ∈ m.tombstones →
      TwoPMap.apply applyV m st t op = some m) ∧
    (∀ k, k ∈ m.tombstones → containsKeyA m.map k = false →
      ∀ m2, TwoPMap.apply applyV m st t op = some m2 →
        k ∈ m2.tombstones ∧ containsKeyA m2.map k = false) ∧
    ((∀ k, containsKeyA m.map k = true → k ∉ m.tombstones) →
      ∀ m2, TwoPMap.apply applyV m st t op = some m2 →
        ∀ k, containsKeyA m2.map k = true → k ∉ m2.tombstones) := by
  refine ⟨?_, ?_, ?_⟩
  · intro hk
    unfold TwoPMap.apply
    rw [if_pos hk]
  · intro k hk hkm m2 happ
    unfold TwoPMap.apply at happ
    by_cases hdel : TwoPMapOp.key op t ∈ m.tombstones
    · rw [if_pos hdel] at happ
      injection happ with happ
      rw [← happ]
      exact ⟨hk, hkm⟩
    · rw [if_neg hdel] at happ
      cases op with
      | Insert v =>
        have hkey : TwoPMapOp.key (TwoPMapOp.Insert v : TwoPMapOp K V Op) t = t := rfl
        rw [hkey] at hdel
        dsimp only at happ
        unfold updateWithA at happ
        by_cases hct : containsKeyA m.map t
        · rw [if_pos hct] at happ
          dsimp only at happ
          exact absurd happ (by simp)
        · rw [if_neg hct] at happ
          dsimp only at happ
          injection happ with happ
          rw [← happ]
          refine ⟨hk, ?_⟩
          dsimp only
          by_cases hc2 : containsKeyA (m.map ++ [(t, v)]) k = true
          · rcases (containsKeyA_append_single m.map t v k).mp hc2 with h | h
            · rw [h] at hkm; cases hkm
            · rw [h] at hdel
              exact absurd hk hdel
          · exact Bool.not_eq_true _ ▸ hc2
      | Apply k2 operation =>
        dsimp only at happ
        unfold alterA at happ
        cases hl : lookupA m.map k2 with
        | none => rw [hl] at happ; exact absurd happ (by simp)
        | some v =>
          rw [hl] at happ
          dsimp only at happ
          injection happ with happ
          rw [← happ]
          refine ⟨hk, ?_⟩
          dsimp only
          rw [containsKeyA_map_keys _ ?_ m.map k]
          · exact hkm
          · intro pr
            by_cases hpk : pr.1 = k2 <;> simp [hpk]
      | Delete k2 =>
        dsimp only at happ
        injection happ with happ
        rw [← happ]
        constructor
        · dsimp only
          rw [mem_setUpdateA]
          exact Or.inl hk
        · dsimp only
          by_cases hc2 : containsKeyA (withoutA m.map k2) k = true
          · obtain ⟨hmem, _⟩ := containsKeyA_withoutA m.map k2 k hc2
            rw [hmem] at hkm; cases hkm
          · exact Bool.not_eq_true _ ▸ hc2
  · intro hdisj m2 happ k hkm2
    unfold TwoPMap.apply at happ
    by_cases hdel : TwoPMapOp.key op t ∈ m.tombstones
    · rw [if_pos hdel] at happ
      injection happ with happ
      rw [← happ] at hkm2 ⊢
      exact hdisj k hkm2
    · rw [if_neg hdel] at happ
      cases op with
      | Insert v =>
        have hkey : TwoPMapOp.key (TwoPMapOp.Insert v : TwoPMapOp K V Op) t = t := rfl
        rw [hkey] at hdel
        dsimp only at happ
        unfold updateWithA at happ
        by_cases hct : containsKeyA m.map t
        · rw [if_pos hct] at happ
          exact absurd happ (by simp)
        · rw [if_neg hct] at happ
          dsimp only at happ
          injection happ with happ
          rw [← happ] at hkm2 ⊢
          dsimp only at hkm2 ⊢
          rcases (containsKeyA_append_single m.map t v k).mp hkm2 with h | h
          · exact hdisj k h
          · rw [← h]
            exact hdel
      | Apply k2 operation =>
        dsimp only at happ
        unfold alterA at happ
        cases hl : lookupA m.map k2 with
        | none => rw [hl] at happ; exact absurd happ (by simp)
        | some v =>
          rw [hl] at happ
          dsimp only at happ
          injection happ with happ
          rw [← happ] at hkm2 ⊢
          dsimp only at hkm2 ⊢
          rw [containsKeyA_map_keys _ ?_ m.map k] at hkm2
          · exact hdisj k hkm2
          · intro pr
            by_cases hpk : pr.1 = k2 <;> simp [hpk]
      | Delete k2 =>
        dsimp only at happ
        injection happ with happ
        rw [← happ] at hkm2 ⊢
        dsimp only at hkm2 ⊢
        obtain ⟨hmem, hne⟩ := containsKeyA_withoutA m.map k2 k hkm2
        rw [mem_setUpdateA]
        rintro (h | h)
        · exact hdisj k hmem h
        · exact hne h

/-- C10 witness: on a concrete map with tombstone `3`, a `Delete` of key
`3` returns the map unchanged, a tombstoned key survives an unrelated
insert, and disjointness is preserved. -/
theorem twopmap_apply_delete_wins_witness :
    TwoPMap.apply (fun (_ : Unit) (_ : Nat) (o : Nat) (v : Nat) => v + o)
      ⟨[(1, 10)], [3]⟩ () 3 (TwoPMapOp.Delete 3) = some ⟨[(1, 10)], [3]⟩ ∧
    ((3 : Nat) ∈ ([3] : List Nat) ∧
      containsKeyA ([(1, 10)] : List (Nat × Nat)) 3 = false) :=
  ⟨(twopmap_apply_delete_wins
      (fun (_ : Unit) (_ : Nat) (o : Nat) (v : Nat) => v + o)
      ⟨[(1, 10)], [3]⟩ () 3 (TwoPMapOp.Delete 3)).1 (by decide),
   by decide⟩

/-! ## Termination of the sync worklist recursions

The Rust recursions in `mark_as_known` and `prepare_haves` walk parent
edges, so they terminate exactly because a DAG state is acyclic.
Acyclicity is expressed by the existence of a topological rank: a function
on header ids that strictly decreases from child to parent.  Every state
reachable through `insert_header` has one (parents must exist before their
children), with ranks below the node count.  The measure of a worklist is
the sum over its entries of `W ^ rank`, where `W` exceeds the largest
parent-list length by 2: popping an entry and pushing its parents strictly
decreases the measure. -/

/-- The number of stored nodes. -/
def numNodes (s : EcgState HeaderId Header) : Nat := s.node_info_map.length

/-- The largest parent-list length over the stored headers. -/
def maxParents (E : ECGHeaderImpl Header HeaderId)
    (s : EcgState HeaderId Header) : Nat :=
  s.node_info_map.foldl (fun acc pr => max acc (E.get_parent_ids pr.2.header).length) 0

/-- Well-formedness: every parent of a stored header is itself stored
(guaranteed by the `insert_header` policy). -/
def WfState [DecidableEq HeaderId] (E : ECGHeaderImpl Header HeaderId)
    (s : EcgState HeaderId Header) : Prop :=
  ∀ pr ∈ s.node_info_map, ∀ p ∈ E.get_parent_ids pr.2.header,
    containsNode s p = true

/-- A topological rank for a state: parents rank strictly below children,
and all ranks are below the node count.  Existence is equivalent to
acyclicity of the stored DAG. -/
def TopoRank (E : ECGHeaderImpl Header HeaderId)
    (s : EcgState HeaderId Header) (rank : HeaderId → Nat) : Prop :=
  (∀ pr ∈ s.node_info_map, ∀ p ∈ E.get_parent_ids pr.2.header,
    rank p < rank pr.1) ∧
  (∀ pr ∈ s.node_info_map, rank pr.1 < numNodes s)

/-- The weight of one worklist entry with id `h`. -/
def nodeWeight (E : ECGHeaderImpl Header HeaderId)
    (s : EcgState HeaderId Header) (rank : HeaderId → Nat) (h : HeaderId) : Nat :=
  (maxParents E s + 2) ^ rank h

/-- The measure of a worklist of ids. -/
def measureIds (E : ECGHeaderImpl Header HeaderId)
    (s : EcgState HeaderId Header) (rank : HeaderId → Nat)
    (ids : List HeaderId) : Nat :=
  (ids.map (nodeWeight E s rank)).sum

theorem nodeWeight_pos (E : ECGHeaderImpl Header HeaderId)
    (s : EcgState HeaderId Header) (rank : HeaderId → Nat) (h : HeaderId) :
    0 < nodeWeight E s rank h :=
  Nat.pos_pow_of_pos _ (by omega)

theorem foldl_max_init_le {A : Type _} (f : A → Nat) :
    ∀ (l : List A) (a : Nat), a ≤ l.foldl (fun acc x => max acc (f x)) a
  | [], a => le_refl a
  | x :: l, a =>
    le_trans (le_max_left a (f x)) (foldl_max_init_le f l (max a (f x)))

theorem foldl_max_mem_le {A : Type _} (f : A → Nat) :
    ∀ (l : List A) (a : Nat) (b : A), b ∈ l →
      f b ≤ l.foldl (fun acc x => max acc (f x)) a
  | [], _, b, hb => absurd hb (List.not_mem_nil b)
  | x :: l, a, b, hb => by
    rcases List.mem_cons.mp hb with h | h
    · subst h
      exact le_trans (le_max_right a (f b)) (foldl_max_init_le f l _)
    · exact foldl_max_mem_le f l _ b h

theorem maxParents_ge (E : ECGHeaderImpl Header HeaderId)
    (s : EcgState HeaderId Header) (pr : HeaderId × NodeInfo Header)
    (hmem : pr ∈ s.node_info_map) :
    (E.get_parent_ids pr.2.header).length ≤ maxParents E s :=
  foldl_max_mem_le (fun pr => (E.get_parent_ids pr.2.header).length)
    s.node_info_map 0 pr hmem

/-- Popping a node and pushing all its parents strictly decreases the
weight: the parents' weights sum to less than the node's weight. -/
theorem parents_weight_lt [DecidableEq HeaderId]
    (E : ECGHeaderImpl Header HeaderId) (s : EcgState HeaderId Header)
    (rank : HeaderId → Nat) (htr : TopoRank E s rank)
    (c : HeaderId) (info : NodeInfo Header)
    (hmem : (c, info) ∈ s.node_info_map) :
    measureIds E s rank (E.get_parent_ids info.header) <
      nodeWeight E s rank c := by
  set W := maxParents E s + 2 with hW
  cases hr : rank c with
  | zero =>
    -- Rank 0 admits no parents.
    cases hps : E.get_parent_ids info.header with
    | nil =>
      simp only [measureIds, hps, List.map_nil, List.sum_nil]
      exact nodeWeight_pos E s rank c
    | cons p ps =>
      have h2 : rank p < rank c :=
        htr.1 (c, info) hmem p (by rw [hps]; exact List.mem_cons_self _ _)
      omega
  | succ r =>
    have hbound : ∀ w ∈ (E.get_parent_ids info.header).map (nodeWeight E s rank),
        w ≤ W ^ r := by
      intro w hw
      obtain ⟨p, hp, hwp⟩ := List.mem_map.mp hw
      have hrp : rank p < rank c := htr.1 (c, info) hmem p hp
      rw [hr] at hrp
      rw [← hwp]
      exact Nat.pow_le_pow_right (by omega) (by omega)
    have hsum : measureIds E s rank (E.get_parent_ids info.header) ≤
        (E.get_parent_ids info.header).length * W ^ r := by
      have := List.sum_le_card_nsmul
        ((E.get_parent_ids info.header).map (nodeWeight E s rank)) (W ^ r) hbound
      simpa [measureIds, smul_eq_mul] using this
    have hlen : (E.get_parent_ids info.header).length ≤ maxParents E s :=
      maxParents_ge E s (c, info) hmem
    have hWpos : 0 < W ^ r := Nat.pos_pow_of_pos _ (by omega)
    calc measureIds E s rank (E.get_parent_ids info.header)
        ≤ (E.get_parent_ids info.header).length * W ^ r := hsum
      _ ≤ maxParents E s * W ^ r := Nat.mul_le_mul_right _ hlen
      _ < W * W ^ r := by
          have : maxParents E s < W := by omega
          exact (Nat.mul_lt_mul_right hWpos).mpr this
      _ = nodeWeight E s rank c := by
          simp only [nodeWeight, hr, ← hW, pow_succ]
          ring

/-- If a node is stored, its `get_parents` succeeds. -/
theorem get_parents_of_contains [DecidableEq HeaderId]
    (E : ECGHeaderImpl Header HeaderId) (s : EcgState HeaderId Header)
    (h : HeaderId) (info : NodeInfo Header)
    (hl : lookupA s.node_info_map h = some info) :
    get_parents E s h = some (E.get_parent_ids info.header) := by
  unfold get_parents
  rw [hl]
  rfl

/-- Completion of the `mark_as_known` worker: with enough fuel relative to
the worklist measure, an acyclic well-formed state never exhausts the fuel
nor reaches the `todo!` panic. -/
theorem markGo_complete [DecidableEq HeaderId]
    (E : ECGHeaderImpl Header HeaderId) (s : EcgState HeaderId Header)
    (rank : HeaderId → Nat) (hwf : WfState E s) (htr : TopoRank E s rank) :
    ∀ (fuel : Nat) (queue : List HeaderId) (known : Finset HeaderId),
      (∀ id ∈ queue, containsNode s id = true) →
      measureIds E s rank queue < fuel →
      ∃ k2, markGo E s fuel known queue = some k2 := by
  intro fuel
  induction fuel with
  | zero => intro queue known _ hm; omega
  | succ fuel ih =>
    intro queue known hq hm
    cases queue with
    | nil => exact ⟨known, rfl⟩
    | cons h rest =>
      have hh : containsNode s h = true := hq h (List.mem_cons_self _ _)
      have hmr : measureIds E s rank (h :: rest) =
          nodeWeight E s rank h + measureIds E s rank rest := by
        simp [measureIds]
      by_cases hmem : h ∈ known
      · -- Already present: the code walks the parents.
        obtain ⟨info, hinfo⟩ : ∃ info, lookupA s.node_info_map h = some info := by
          unfold containsNode containsKeyA at hh
          cases hl : lookupA s.node_info_map h with
          | none => rw [hl] at hh; simp at hh
          | some info => exact ⟨info, rfl⟩
        have hplt := parents_weight_lt E s rank htr h info (lookupA_mem _ _ _ hinfo)
        have hnext : measureIds E s rank (rest ++ E.get_parent_ids info.header) <
            fuel := by
          have : measureIds E s rank (rest ++ E.get_parent_ids info.header) =
              measureIds E s rank rest +
              measureIds E s rank (E.get_parent_ids info.header) := by
            simp [measureIds]
          omega
        have hqnext : ∀ id ∈ rest ++ E.get_parent_ids info.header,
            containsNode s id = true := by
          intro id hid
          rcases List.mem_append.mp hid with hid | hid
          · exact hq id (List.mem_cons_of_mem _ hid)
          · exact hwf (h, info) (lookupA_mem _ _ _ hinfo) id hid
        obtain ⟨k2, hk2⟩ := ih (rest ++ E.get_parent_ids info.header)
          (insert h known) hqnext hnext
        refine ⟨k2, ?_⟩
        unfold markGo
        rw [if_pos (by simp [hmem]), get_parents_of_contains E s h info hinfo]
        exact hk2
      · -- Newly inserted: the code stops along this branch.
        have hwpos := nodeWeight_pos E s rank h
        obtain ⟨k2, hk2⟩ := ih rest (insert h known)
          (fun id hid => hq id (List.mem_cons_of_mem _ hid)) (by omega)
        refine ⟨k2, ?_⟩
        unfold markGo
        rw [if_neg (by simp [hmem])]
        exact hk2

/-- Sufficient fuel for any single `mark_as_known` call on a state. -/
def markFuel (E : ECGHeaderImpl Header HeaderId)
    (s : EcgState HeaderId Header) : Nat :=
  (maxParents E s + 2) ^ numNodes s

theorem nodeWeight_lt_markFuel [DecidableEq HeaderId]
    (E : ECGHeaderImpl Header HeaderId) (s : EcgState HeaderId Header)
    (rank : HeaderId → Nat) (htr : TopoRank E s rank) (h : HeaderId)
    (hh : containsNode s h = true) :
    nodeWeight E s rank h < markFuel E s := by
  obtain ⟨info, hinfo⟩ : ∃ info, lookupA s.node_info_map h = some info := by
    unfold containsNode containsKeyA at hh
    cases hl : lookupA s.node_info_map h with
    | none => rw [hl] at hh; simp at hh
    | some info => exact ⟨info, rfl⟩
  have hr := htr.2 (h, info) (lookupA_mem _ _ _ hinfo)
  exact Nat.pow_lt_pow_right (by omega) hr

/-- Completion of `mark_as_known` on a stored header, given fuel of at
least `markFuel`. -/
theorem mark_as_known_complete [DecidableEq HeaderId]
    (E : ECGHeaderImpl Header HeaderId) (s : EcgState HeaderId Header)
    (rank : HeaderId → Nat) (hwf : WfState E s) (htr : TopoRank E s rank)
    (fuel : Nat) (hfuel : markFuel E s ≤ fuel) (known : Finset HeaderId)
    (h : HeaderId) (hh : containsNode s h = true) :
    ∃ k2, mark_as_known E fuel s known h = some k2 := by
  apply markGo_complete E s rank hwf htr fuel [h] known
    (by intro id hid; rcases List.mem_singleton.mp hid with rfl; exact hh)
  have := nodeWeight_lt_markFuel E s rank htr h hh
  simp only [measureIds, List.map_cons, List.map_nil, List.sum_cons, List.sum_nil]
  omega

theorem mem_enumerateFrom {α : Type _} :
    ∀ (l : List α) (n i : Nat) (x : α),
      (i, x) ∈ enumerateFrom n l ↔ (n ≤ i ∧ l.get? (i - n) = some x)
  | [], n, i, x => by simp [enumerateFrom]
  | y :: l, n, i, x => by
    simp only [enumerateFrom, List.mem_cons, Prod.mk.injEq]
    constructor
    · rintro (⟨h1, h2⟩ | h)
      · refine ⟨by omega, ?_⟩
        have hi0 : i - n = 0 := by omega
        rw [hi0, h2]
        simp
      · obtain ⟨hle, hg⟩ := (mem_enumerateFrom l (n + 1) i x).mp h
        refine ⟨by omega, ?_⟩
        have hin : i - n = (i - (n + 1)) + 1 := by omega
        rw [hin]
        simpa using hg
    · rintro ⟨hle, hg⟩
      by_cases hi : i = n
      · subst hi
        simp only [Nat.sub_self, List.get?_cons_zero] at hg
        injection hg with hg
        exact Or.inl ⟨rfl, hg.symm⟩
      · right
        apply (mem_enumerateFrom l (n + 1) i x).mpr
        refine ⟨by omega, ?_⟩
        have hin : i - n = (i - (n + 1)) + 1 := by omega
        rw [hin] at hg
        simpa using hg

theorem enumerateFrom_lt {α : Type _} :
    ∀ (l : List α) (n : Nat) (pr : Nat × α),
      pr ∈ enumerateFrom n l → pr.1 < n + l.length
  | [], n, pr, h => by cases h
  | y :: l, n, pr, h => by
    rcases List.mem_cons.mp h with h | h
    · subst h; simp
    · have := enumerateFrom_lt l (n + 1) pr h
      simp only [List.length_cons]
      omega

/-- If a node is stored, its `get_children_with_depth` succeeds. -/
theorem gcwd_of_contains [DecidableEq HeaderId]
    (E : ECGHeaderImpl Header HeaderId) (s : EcgState HeaderId Header)
    (h : HeaderId) (hh : containsNode s h = true) :
    ∃ ch, get_children_with_depth E s h = some ch := by
  unfold containsNode containsKeyA at hh
  cases hl : lookupA s.node_info_map h with
  | none => rw [hl] at hh; simp at hh
  | some info =>
    refine ⟨s.node_info_map.flatMap (fun pr =>
      (E.get_parent_ids pr.2.header).filterMap (fun p =>
        if p = h then some (pr.2.depth, pr.1) else none)), ?_⟩
    unfold get_children_with_depth
    rw [hl]

theorem bitmapGet_fill_false (bm : HeaderBitmap) (i : Nat) (hi : i < bm.length) :
    bitmapGet (bitmapFill bm false) i = some false := by
  unfold bitmapGet bitmapFill
  rw [List.get?_map]
  cases hg : bm.get? i with
  | none =>
    rw [List.get?_eq_none] at hg
    omega
  | some b => rfl

/-- The loop of `handle_received_have` completes on a well-formed acyclic
state and computes the bitmap bit by bit: processed indices whose header is
contained are set, all other bits are left as they were. -/
theorem hrhLoop_spec [DecidableEq HeaderId]
    (E : ECGHeaderImpl Header HeaderId) (s : EcgState HeaderId Header)
    (rank : HeaderId → Nat) (hwf : WfState E s) (htr : TopoRank E s rank)
    (fuel : Nat) (hfuel : markFuel E s ≤ fuel) :
    ∀ (ps : List (Nat × HeaderId)) (tk : Finset HeaderId)
      (sq : List (Nat × HeaderId)) (bm : HeaderBitmap),
      (∀ pr ∈ ps, pr.1 < bm.length) →
      ∃ tk2 sq2 bm2,
        hrhLoop E fuel s ps tk sq bm = some (tk2, sq2, bm2) ∧
        bm2.length = bm.length ∧
        (∀ i, (∃ id, (i, id) ∈ ps ∧ containsNode s id = true) →
          bitmapGet bm2 i = some true) ∧
        (∀ i, (∀ id, (i, id) ∈ ps → containsNode s id = false) →
          bitmapGet bm2 i = bitmapGet bm i)
  | [], tk, sq, bm, _ => by
    refine ⟨tk, sq, bm, rfl, rfl, ?_, ?_⟩
    · rintro i ⟨id, hmem, _⟩
      cases hmem
    · intro i _
      rfl
  | (i, id) :: rest, tk, sq, bm, hidx => by
    have hibm : i < bm.length := hidx (i, id) (List.mem_cons_self _ _)
    by_cases hc : containsNode s id = true
    · obtain ⟨tk1, htk1⟩ :=
        mark_as_known_complete E s rank hwf htr fuel hfuel tk id hc
      have hbs : bitmapSet bm i true = some (bm.set i true) := by
        unfold bitmapSet
        rw [if_pos hibm]
      obtain ⟨ch, hch⟩ := gcwd_of_contains E s id hc
      have hidx2 : ∀ pr ∈ rest, pr.1 < (bm.set i true).length := by
        intro pr hpr
        rw [List.length_set]
        exact hidx pr (List.mem_cons_of_mem _ hpr)
      obtain ⟨tk2, sq2, bm2, hrec, hblen, hset, hkeep⟩ :=
        hrhLoop_spec E s rank hwf htr fuel hfuel rest tk1 (sq ++ ch)
          (bm.set i true) hidx2
      refine ⟨tk2, sq2, bm2, ?_, ?_, ?_, ?_⟩
      · unfold hrhLoop
        rw [if_pos hc, htk1]
        dsimp only
        rw [hbs]
        dsimp only
        rw [hch]
        exact hrec
      · rw [hblen, List.length_set]
      · intro i0 hex
        obtain ⟨id0, hmem0, hc0⟩ := hex
        rcases List.mem_cons.mp hmem0 with hhead | hrest
        · injection hhead with h1 h2
          subst h1
          by_cases hex2 : ∃ id1, (i0, id1) ∈ rest ∧ containsNode s id1 = true
          · exact hset i0 hex2
          · push_neg at hex2
            have hall : ∀ id1, (i0, id1) ∈ rest → containsNode s id1 = false := by
              intro id1 hmem1
              have := hex2 id1 hmem1
              exact Bool.not_eq_true _ ▸ this
            rw [hkeep i0 hall]
            unfold bitmapGet
            rw [List.get?_set_eq_of_lt true hibm]
        · exact hset i0 ⟨id0, hrest, hc0⟩
      · intro i0 hall
        have hne : i0 ≠ i := by
          intro he
          subst he
          have := hall id (List.mem_cons_self _ _)
          rw [hc] at this
          cases this
        rw [hkeep i0 (fun id1 hmem1 => hall id1 (List.mem_cons_of_mem _ hmem1))]
        unfold bitmapGet
        rw [List.get?_set_ne true bm (fun he => hne he.symm)]
    · have hcf : containsNode s id = false := Bool.not_eq_true _ ▸ hc
      obtain ⟨tk2, sq2, bm2, hrec, hblen, hset, hkeep⟩ :=
        hrhLoop_spec E s rank hwf htr fuel hfuel rest tk sq bm
          (fun pr hpr => hidx pr (List.mem_cons_of_mem _ hpr))
      refine ⟨tk2, sq2, bm2, ?_, hblen, ?_, ?_⟩
      · unfold hrhLoop
        rw [if_neg (by simp [hcf])]
        exact hrec
      · intro i0 hex
        obtain ⟨id0, hmem0, hc0⟩ := hex
        rcases List.mem_cons.mp hmem0 with hhead | hrest
        · injection hhead with h1 h2
          subst h1; subst h2
          rw [hcf] at hc0
          cases hc0
        · exact hset i0 ⟨id0, hrest, hc0⟩
      · intro i0 hall
        exact hkeep i0 (fun id1 hmem1 => hall id1 (List.mem_cons_of_mem _ hmem1))

/-- C8: for a received `have` list of length at most 32,
`handle_received_have` completes (on a well-formed acyclic state with
enough fuel for the inner `mark_as_known` calls), absorbs exactly the first
`min(their_tips_remaining, have.len())` entries into `their_tips`,
decrements `their_tips_remaining` by that count, and produces a bitmap
whose bit `i` is set iff the local state contains `have[i]`, all other bits
cleared. -/
theorem handle_received_have_spec [DecidableEq HeaderId]
    (E : ECGHeaderImpl Header HeaderId) (s : EcgState HeaderId Header)
    (rank : HeaderId → Nat) (hwf : WfState E s) (htr : TopoRank E s rank)
    (fuel : Nat) (hfuel : markFuel E s ≤ fuel)
    (trem : Nat) (tt : List HeaderId) (tk : Finset HeaderId)
    (sq : List (Nat × HeaderId)) (hv : List HeaderId) (bm : HeaderBitmap)
    (hlen : hv.length ≤ 32) (hbm : bm.length = 32) :
    ∃ tk2 sq2 bm2,
      handle_received_have E fuel s trem tt tk sq hv bm =
        some (trem - min trem hv.length, tt ++ hv.take (min trem hv.length),
          tk2, sq2, bm2) ∧
      bm2.length = 32 ∧
      (∀ i id, hv.get? i = some id →
        bitmapGet bm2 i = some (containsNode s id)) ∧
      (∀ i, hv.length ≤ i → i < 32 → bitmapGet bm2 i = some false) := by
  have hfill_len : (bitmapFill bm false).length = 32 := by
    unfold bitmapFill
    rw [List.length_map, hbm]
  have hidx : ∀ pr ∈ enumerateFrom 0 hv, pr.1 < (bitmapFill bm false).length := by
    intro pr hpr
    have := enumerateFrom_lt hv 0 pr hpr
    omega
  obtain ⟨tk2, sq2, bm2, hloop, hblen, hset, hkeep⟩ :=
    hrhLoop_spec E s rank hwf htr fuel hfuel (enumerateFrom 0 hv) tk sq
      (bitmapFill bm false) hidx
  refine ⟨tk2, sq2, bm2, ?_, by rw [hblen, hfill_len], ?_, ?_⟩
  · unfold handle_received_have
    dsimp only
    rw [hloop]
  · intro i id hg
    by_cases hc : containsNode s id = true
    · rw [hc]
      apply hset
      refine ⟨id, ?_, hc⟩
      apply (mem_enumerateFrom hv 0 i id).mpr
      simpa using hg
    · have hcf : containsNode s id = false := Bool.not_eq_true _ ▸ hc
      rw [hcf]
      have hall : ∀ id1, (i, id1) ∈ enumerateFrom 0 hv →
          containsNode s id1 = false := by
        intro id1 hmem1
        obtain ⟨_, hg1⟩ := (mem_enumerateFrom hv 0 i id1).mp hmem1
        simp only [Nat.sub_zero] at hg1
        rw [hg] at hg1
        injection hg1 with hg1
        rw [← hg1]
        exact hcf
      rw [hkeep i hall]
      apply bitmapGet_fill_false
      have : i < hv.length := by
        by_contra hge
        rw [List.get?_eq_none.mpr (by omega)] at hg
        cases hg
      omega
  · intro i hge hlt
    have hall : ∀ id1, (i, id1) ∈ enumerateFrom 0 hv →
        containsNode s id1 = false := by
      intro id1 hmem1
      obtain ⟨_, hg1⟩ := (mem_enumerateFrom hv 0 i id1).mp hmem1
      simp only [Nat.sub_zero] at hg1
      rw [List.get?_eq_none.mpr (by omega)] at hg1
      cases hg1
    rw [hkeep i hall]
    apply bitmapGet_fill_false
    omega

/-- C8 witness: a concrete run on the two-node chain with `have = [0, 7]`,
one tip still outstanding. -/
theorem handle_received_have_spec_witness :
    ∃ tk2 sq2 bm2,
      handle_received_have testImpl 16 exChain 1 [] ∅ [] [0, 7]
          (List.replicate 32 false) =
        some (1 - min 1 [0, 7].length, [] ++ [0, 7].take (min 1 [0, 7].length),
          tk2, sq2, bm2) ∧
      bm2.length = 32 ∧
      (∀ i id, [0, 7].get? i = some id →
        bitmapGet bm2 i = some (containsNode exChain id)) ∧
      (∀ i, [0, 7].length ≤ i → i < 32 → bitmapGet bm2 i = some false) :=
  handle_received_have_spec testImpl exChain (fun h => h)
    (by unfold WfState; decide) (by unfold TopoRank; decide) 16
    (by unfold markFuel; decide) 1 [] ∅ [] [0, 7] (List.replicate 32 false)
    (by decide) (by decide)

/-- Sequentially mark a list of headers as known (the effect of
`handle_received_known` on the selected entries). -/
def markSeq [DecidableEq HeaderId] (E : ECGHeaderImpl Header HeaderId)
    (fuel : Nat) (s : EcgState HeaderId Header) :
    List HeaderId → Finset HeaderId → Option (Finset HeaderId)
  | [], tk => some tk
  | id :: rest, tk =>
    match mark_as_known E fuel s tk id with
    | none => none
    | some tk2 => markSeq E fuel s rest tk2

/-- The entries of `sent_haves` whose bit is set in the received bitmap. -/
def selectedHaves [DecidableEq HeaderId] (sent_haves : List HeaderId)
    (bm : HeaderBitmap) : List HeaderId :=
  ((enumerateFrom 0 sent_haves).filter
    (fun pr => decide (bitmapGet bm pr.1 = some true))).map Prod.snd

theorem hrkLoop_eq_markSeq [DecidableEq HeaderId]
    (E : ECGHeaderImpl Header HeaderId) (fuel : Nat)
    (s : EcgState HeaderId Header) (bm : HeaderBitmap) :
    ∀ (ps : List (Nat × HeaderId)) (tk : Finset HeaderId),
      (∀ pr ∈ ps, pr.1 < bm.length) →
      hrkLoop E fuel s bm ps tk =
        markSeq E fuel s
          ((ps.filter (fun pr => decide (bitmapGet bm pr.1 = some true))).map
            Prod.snd) tk
  | [], tk, _ => rfl
  | (i, id) :: rest, tk, hidx => by
    have hib : i < bm.length := hidx (i, id) (List.mem_cons_self _ _)
    obtain ⟨b, hb⟩ : ∃ b, bitmapGet bm i = some b := by
      unfold bitmapGet
      cases hg : bm.get? i with
      | none =>
        rw [List.get?_eq_none] at hg
        omega
      | some b => exact ⟨b, rfl⟩
    unfold hrkLoop
    rw [hb]
    dsimp only
    cases b with
    | true =>
      rw [List.filter_cons_of_pos (by simp [hb])]
      simp only [List.map_cons]
      unfold markSeq
      cases hm : mark_as_known E fuel s tk id with
      | none => rfl
      | some tk2 =>
        dsimp only
        exact hrkLoop_eq_markSeq E fuel s bm rest tk2
          (fun pr hpr => hidx pr (List.mem_cons_of_mem _ hpr))
    | false =>
      rw [List.filter_cons_of_neg (by simp [hb])]
      exact hrkLoop_eq_markSeq E fuel s bm rest tk
        (fun pr hpr => hidx pr (List.mem_cons_of_mem _ hpr))

theorem markSeq_complete [DecidableEq HeaderId]
    (E : ECGHeaderImpl Header HeaderId) (s : EcgState HeaderId Header)
    (rank : HeaderId → Nat) (hwf : WfState E s) (htr : TopoRank E s rank)
    (fuel : Nat) (hfuel : markFuel E s ≤ fuel) :
    ∀ (ids : List HeaderId) (tk : Finset HeaderId),
      (∀ id ∈ ids, containsNode s id = true) →
      ∃ tk2, markSeq E fuel s ids tk = some tk2
  | [], tk, _ => ⟨tk, rfl⟩
  | id :: rest, tk, hc => by
    obtain ⟨tk1, htk1⟩ := mark_as_known_complete E s rank hwf htr fuel hfuel tk
      id (hc id (List.mem_cons_self _ _))
    obtain ⟨tk2, htk2⟩ := markSeq_complete E s rank hwf htr fuel hfuel rest tk1
      (fun id2 h2 => hc id2 (List.mem_cons_of_mem _ h2))
    refine ⟨tk2, ?_⟩
    unfold markSeq
    rw [htk1]
    exact htk2

/-- C9: with `sent_haves` of length at most 32 and a 32-bit bitmap, all
bitmap accesses are in bounds: `handle_received_known` equals the
sequential marking of exactly those `sent_haves[i]` whose bit `i` is set
(so the `expect` never panics, and it completes on a well-formed acyclic
state), and `handle_received_have` likewise completes on any `have` list of
length at most 32 (its `known_bitmap.set(i, true)` never panics). -/
theorem handle_received_known_spec [DecidableEq HeaderId]
    (E : ECGHeaderImpl Header HeaderId) (s : EcgState HeaderId Header)
    (rank : HeaderId → Nat) (hwf : WfState E s) (htr : TopoRank E s rank)
    (fuel : Nat) (hfuel : markFuel E s ≤ fuel) (tk : Finset HeaderId)
    (sent_haves : List HeaderId) (bm : HeaderBitmap)
    (hsh : sent_haves.length ≤ 32) (hbm : bm.length = 32)
    (hcont : ∀ id ∈ sent_haves, containsNode s id = true) :
    (handle_received_known E fuel s tk sent_haves bm =
      markSeq E fuel s (selectedHaves sent_haves bm) tk) ∧
    (∃ tk2, handle_received_known E fuel s tk sent_haves bm = some tk2) ∧
    (∀ (trem : Nat) (tt : List HeaderId) (sq : List (Nat × HeaderId))
      (hv : List HeaderId) (bm2 : HeaderBitmap),
      hv.length ≤ 32 → bm2.length = 32 →
      ∃ r, handle_received_have E fuel s trem tt tk sq hv bm2 = some r) := by
  have hidx : ∀ pr ∈ enumerateFrom 0 sent_haves, pr.1 < bm.length := by
    intro pr hpr
    have := enumerateFrom_lt sent_haves 0 pr hpr
    omega
  have heq : handle_received_known E fuel s tk sent_haves bm =
      markSeq E fuel s (selectedHaves sent_haves bm) tk :=
    hrkLoop_eq_markSeq E fuel s bm (enumerateFrom 0 sent_haves) tk hidx
  refine ⟨heq, ?_, ?_⟩
  · rw [heq]
    apply markSeq_complete E s rank hwf htr fuel hfuel
    intro id hid
    obtain ⟨pr, hpr, hsnd⟩ := List.mem_map.mp hid
    have hmem := List.mem_of_mem_filter hpr
    obtain ⟨i2, x2⟩ := pr
    dsimp only at hsnd
    subst hsnd
    obtain ⟨_, hg⟩ := (mem_enumerateFrom sent_haves 0 i2 x2).mp hmem
    exact hcont x2 (List.get?_mem hg)
  · intro trem tt sq hv bm2 hlv hbm2
    obtain ⟨tk2, sq2, bm3, hrun, _, _, _⟩ := handle_received_have_spec E s rank
      hwf htr fuel hfuel trem tt tk sq hv bm2 hlv hbm2
    exact ⟨_, hrun⟩

/-- C9 witness: a concrete run on the two-node chain, `sent_haves = [0, 1]`
with only bit 1 set. -/
theorem handle_received_known_spec_witness :
    (handle_received_known testImpl 16 exChain ∅ [0, 1]
        (List.set (List.replicate 32 false) 1 true) =
      markSeq testImpl 16 exChain
        (selectedHaves [0, 1] (List.set (List.replicate 32 false) 1 true)) ∅) ∧
    (∃ tk2, handle_received_known testImpl 16 exChain ∅ [0, 1]
        (List.set (List.replicate 32 false) 1 true) = some tk2) ∧
    (∀ (trem : Nat) (tt : List Nat) (sq : List (Nat × Nat))
      (hv : List Nat) (bm2 : HeaderBitmap),
      hv.length ≤ 32 → bm2.length = 32 →
      ∃ r, handle_received_have testImpl 16 exChain trem tt ∅ sq hv bm2 =
        some r) :=
  handle_received_known_spec testImpl exChain (fun h => h)
    (by unfold WfState; decide) (by unfold TopoRank; decide) 16
    (by unfold markFuel; decide) ∅ [0, 1]
    (List.set (List.replicate 32 false) 1 true) (by decide) (by decide)
    (by decide)

/-- The measure of a probe queue: the summed weights of its entries'
ids. -/
def measureProbe (E : ECGHeaderImpl Header HeaderId)
    (s : EcgState HeaderId Header) (rank : HeaderId → Nat)
    (q : List (ProbeEntry HeaderId)) : Nat :=
  (q.map (fun e => nodeWeight E s rank e.2.2.1)).sum

theorem tryCollect_pairs [DecidableEq HeaderId]
    (s : EcgState HeaderId Header) :
    ∀ (l : List HeaderId),
      (∀ p ∈ l, containsNode s p = true) →
      ∃ prs, tryCollect (fun p => (lookupA s.node_info_map p).map
          (fun pi => (pi.depth, p))) l = some prs ∧
        prs.map Prod.snd = l
  | [], _ => ⟨[], rfl, rfl⟩
  | p :: l, hc => by
    have hp : containsNode s p = true := hc p (List.mem_cons_self _ _)
    obtain ⟨pi, hpi⟩ : ∃ pi, lookupA s.node_info_map p = some pi := by
      unfold containsNode containsKeyA at hp
      cases hl : lookupA s.node_info_map p with
      | none => rw [hl] at hp; simp at hp
      | some pi => exact ⟨pi, rfl⟩
    obtain ⟨prs, hprs, hsnd⟩ := tryCollect_pairs s l
      (fun p2 h2 => hc p2 (List.mem_cons_of_mem _ h2))
    refine ⟨(pi.depth, p) :: prs, ?_, ?_⟩
    · simp [tryCollect, hpi, hprs]
    · simp [hsnd]

/-- On a well-formed state, `get_parents_with_depth` of a stored node
succeeds and lists exactly the header's parent ids. -/
theorem gpwd_of_contains_wf [DecidableEq HeaderId]
    (E : ECGHeaderImpl Header HeaderId) (s : EcgState HeaderId Header)
    (hwf : WfState E s) (h : HeaderId) (info : NodeInfo Header)
    (hl : lookupA s.node_info_map h = some info) :
    ∃ prs, get_parents_with_depth E s h = some prs ∧
      prs.map Prod.snd = E.get_parent_ids info.header := by
  obtain ⟨prs, htc, hsnd⟩ := tryCollect_pairs s (E.get_parent_ids info.header)
    (fun p hp => hwf (h, info) (lookupA_mem _ _ _ hl) p hp)
  refine ⟨prs, ?_, hsnd⟩
  unfold get_parents_with_depth
  rw [hl]
  exact htc

/-- The entries that can ever sit in the probe queue of `prepare_haves`
when it starts from `q0`: the initial entries, and parents of reachable
entries at distance one more ("was popped from the probe queue"). -/
inductive ProbeReach [DecidableEq HeaderId] (E : ECGHeaderImpl Header HeaderId)
    (s : EcgState HeaderId Header) (q0 : List (ProbeEntry HeaderId)) :
    ProbeEntry HeaderId → Prop
  | base (e : ProbeEntry HeaderId) : e ∈ q0 → ProbeReach E s q0 e
  | step (t : Bool) (d : Nat) (h : HeaderId) (dist : Nat)
      (prs : List (Nat × HeaderId)) (d2 : Nat) (p : HeaderId) :
      ProbeReach E s q0 (t, d, h, dist) →
      get_parents_with_depth E s h = some prs → (d2, p) ∈ prs →
      ProbeReach E s q0 (false, d2, p, dist + 1)

/-- The invariant-and-completion lemma for the `prepare_haves` worker. -/
theorem prepHavesGo_spec [DecidableEq HeaderId] [LinearOrder HeaderId]
    (E : ECGHeaderImpl Header HeaderId) (s : EcgState HeaderId Header)
    (rank : HeaderId → Nat) (hwf : WfState E s) (htr : TopoRank E s rank)
    (tk : Finset HeaderId) (q0 : List (ProbeEntry HeaderId)) :
    ∀ (fuel : Nat) (q : List (ProbeEntry HeaderId)) (hv : List HeaderId),
      (∀ e ∈ q, containsNode s e.2.2.1 = true) →
      (∀ e ∈ q, ProbeReach E s q0 e) →
      measureProbe E s rank q < fuel →
      hv.length ≤ 32 →
      ∃ hv2 q2, prepHavesGo E s tk fuel q hv = some (hv2, q2) ∧
        hv2.length ≤ 32 ∧
        ∀ h ∈ hv2, h ∈ hv ∨
          (h ∉ tk ∧ ∃ t d dist, ProbeReach E s q0 (t, d, h, dist) ∧
            (is_power_of_two dist || decide (d = 1)) = true) := by
  intro fuel
  induction fuel with
  | zero => intro q hv _ _ hm _; omega
  | succ fuel ih =>
    intro q hv hq hr hm hlen
    by_cases h32 : hv.length = MAX_HAVE_HEADERS
    · refine ⟨hv, q, ?_, ?_, fun h hh => Or.inl hh⟩
      · unfold prepHavesGo
        rw [if_pos h32]
      · unfold MAX_HAVE_HEADERS at h32
        omega
    · cases hpop : popMaxBy probeLe q with
      | none =>
        refine ⟨hv, q, ?_, hlen, fun h hh => Or.inl hh⟩
        unfold prepHavesGo
        rw [if_neg h32, hpop]
      | some pr =>
        obtain ⟨⟨t, d, hd, dist⟩, q1⟩ := pr
        have hperm : q.Perm ((t, d, hd, dist) :: q1) :=
          popMaxBy_perm _ q _ _ hpop
        have hqmem : (t, d, hd, dist) ∈ q :=
          hperm.mem_iff.mpr (List.mem_cons_self _ _)
        have hq1mem : ∀ e ∈ q1, e ∈ q :=
          fun e he => hperm.mem_iff.mpr (List.mem_cons_of_mem _ he)
        have hmq : measureProbe E s rank q =
            nodeWeight E s rank hd + measureProbe E s rank q1 := by
          unfold measureProbe
          rw [(hperm.map (fun e => nodeWeight E s rank e.2.2.1)).sum_eq]
          simp
        by_cases hskip : hd ∈ tk
        · have hnext : measureProbe E s rank q1 < fuel := by
            have := nodeWeight_pos E s rank hd
            omega
          obtain ⟨hv2, q2, hrun, hl2, hprop⟩ := ih q1 hv
            (fun e he => hq e (hq1mem e he)) (fun e he => hr e (hq1mem e he))
            hnext hlen
          refine ⟨hv2, q2, ?_, hl2, hprop⟩
          unfold prepHavesGo
          rw [if_neg h32, hpop]
          dsimp only
          rw [if_neg (by simp [hskip])]
          exact hrun
        · have hcont : containsNode s hd = true := hq _ hqmem
          obtain ⟨info, hinfo⟩ : ∃ info, lookupA s.node_info_map hd = some info := by
            unfold containsNode containsKeyA at hcont
            cases hl : lookupA s.node_info_map hd with
            | none => rw [hl] at hcont; simp at hcont
            | some info => exact ⟨info, rfl⟩
          obtain ⟨prs, hprs, hsnd⟩ := gpwd_of_contains_wf E s hwf hd info hinfo
          have hpush_meas : measureProbe E s rank
              (prs.map (fun pr2 => ((false : Bool), pr2.1, pr2.2, dist + 1))) =
              measureIds E s rank (E.get_parent_ids info.header) := by
            unfold measureProbe measureIds
            rw [List.map_map, ← hsnd, List.map_map]
            rfl
          have hplt := parents_weight_lt E s rank htr hd info
            (lookupA_mem _ _ _ hinfo)
          have hnext : measureProbe E s rank
              (q1 ++ prs.map (fun pr2 => ((false : Bool), pr2.1, pr2.2, dist + 1))) <
              fuel := by
            have happ : measureProbe E s rank
                (q1 ++ prs.map (fun pr2 => ((false : Bool), pr2.1, pr2.2, dist + 1))) =
                measureProbe E s rank q1 + measureProbe E s rank
                  (prs.map (fun pr2 => ((false : Bool), pr2.1, pr2.2, dist + 1))) := by
              unfold measureProbe
              simp
            omega
          have hqnext : ∀ e ∈ q1 ++ prs.map
              (fun pr2 => ((false : Bool), pr2.1, pr2.2, dist + 1)),
              containsNode s e.2.2.1 = true := by
            intro e he
            rcases List.mem_append.mp he with he | he
            · exact hq e (hq1mem e he)
            · obtain ⟨pr2, hpr2, hpe⟩ := List.mem_map.mp he
              rw [← hpe]
              dsimp only
              have hp2 : pr2.2 ∈ prs.map Prod.snd := List.mem_map_of_mem _ hpr2
              rw [hsnd] at hp2
              exact hwf (hd, info) (lookupA_mem _ _ _ hinfo) pr2.2 hp2
          have hrnext : ∀ e ∈ q1 ++ prs.map
              (fun pr2 => ((false : Bool), pr2.1, pr2.2, dist + 1)),
              ProbeReach E s q0 e := by
            intro e he
            rcases List.mem_append.mp he with he | he
            · exact hr e (hq1mem e he)
            · obtain ⟨pr2, hpr2, hpe⟩ := List.mem_map.mp he
              obtain ⟨d2, p2⟩ := pr2
              rw [← hpe]
              exact ProbeReach.step t d hd dist prs d2 p2 (hr _ hqmem) hprs hpr2
          by_cases hcond : (is_power_of_two dist || decide (d = 1)) = true
          · have hlt32 : hv.length < 32 := by
              unfold MAX_HAVE_HEADERS at h32
              omega
            obtain ⟨hv2, q2, hrun, hl2, hprop⟩ := ih
              (q1 ++ prs.map (fun pr2 => ((false : Bool), pr2.1, pr2.2, dist + 1)))
              (hv ++ [hd]) hqnext hrnext hnext (by simp; omega)
            refine ⟨hv2, q2, ?_, hl2, ?_⟩
            · unfold prepHavesGo
              rw [if_neg h32, hpop]
              dsimp only
              rw [if_pos (by simp [hskip]), if_pos hcond, hprs]
              exact hrun
            · intro h hh
              rcases hprop h hh with hin | hgood
              · rcases List.mem_append.mp hin with hin | hin
                · exact Or.inl hin
                · rcases List.mem_singleton.mp hin with rfl
                  exact Or.inr ⟨hskip, t, d, dist, hr _ hqmem, hcond⟩
              · exact Or.inr hgood
          · obtain ⟨hv2, q2, hrun, hl2, hprop⟩ := ih
              (q1 ++ prs.map (fun pr2 => ((false : Bool), pr2.1, pr2.2, dist + 1)))
              hv hqnext hrnext hnext hlen
            refine ⟨hv2, q2, ?_, hl2, hprop⟩
            unfold prepHavesGo
            rw [if_neg h32, hpop]
            dsimp only
            rw [if_pos (by simp [hskip]), if_neg hcond, hprs]
            exact hrun

/-- Sufficient fuel for `prepare_haves` on a state and an initial probe
queue. -/
def probeFuel (E : ECGHeaderImpl Header HeaderId)
    (s : EcgState HeaderId Header) (q : List (ProbeEntry HeaderId)) : Nat :=
  q.length * (maxParents E s + 2) ^ numNodes s + 1

/-- C7: on a well-formed acyclic state, with the probe-queue ids stored and
fuel at least `probeFuel`, `prepare_haves` terminates with at most 32
entries in `haves`, and every id it appends was an entry popped from the
probe queue, is not in `their_known` (which `prepare_haves` never
modifies), and passed the `is_power_of_two distance || depth == 1` test of
its entry. -/
theorem prepare_haves_spec [DecidableEq HeaderId] [LinearOrder HeaderId]
    (E : ECGHeaderImpl Header HeaderId) (s : EcgState HeaderId Header)
    (rank : HeaderId → Nat) (hwf : WfState E s) (htr : TopoRank E s rank)
    (tk : Finset HeaderId) (q : List (ProbeEntry HeaderId))
    (hq : ∀ e ∈ q, containsNode s e.2.2.1 = true)
    (fuel : Nat) (hfuel : probeFuel E s q ≤ fuel) :
    ∃ hv2 q2, prepare_haves E fuel s q tk = some (hv2, q2) ∧
      hv2.length ≤ 32 ∧
      ∀ h ∈ hv2, h ∉ tk ∧
        ∃ t d dist, ProbeReach E s q (t, d, h, dist) ∧
          (is_power_of_two dist || decide (d = 1)) = true := by
  have hmb : measureProbe E s rank q < fuel := by
    have hsumb : measureProbe E s rank q ≤
        q.length * ((maxParents E s + 2) ^ numNodes s - 1) := by
      have hbound : ∀ w ∈ q.map (fun e => nodeWeight E s rank e.2.2.1),
          w ≤ (maxParents E s + 2) ^ numNodes s - 1 := by
        intro w hw
        obtain ⟨e, he, hwe⟩ := List.mem_map.mp hw
        have := nodeWeight_lt_markFuel E s rank htr e.2.2.1 (hq e he)
        unfold markFuel at this
        omega
      have := List.sum_le_card_nsmul
        (q.map (fun e => nodeWeight E s rank e.2.2.1))
        ((maxParents E s + 2) ^ numNodes s - 1) hbound
      simpa [measureProbe, smul_eq_mul] using this
    have hmul : q.length * ((maxParents E s + 2) ^ numNodes s - 1) ≤
        q.length * (maxParents E s + 2) ^ numNodes s := by
      apply Nat.mul_le_mul_left
      omega
    unfold probeFuel at hfuel
    omega
  obtain ⟨hv2, q2, hrun, hl2, hprop⟩ := prepHavesGo_spec E s rank hwf htr tk q
    fuel q [] hq (fun e he => ProbeReach.base e he) hmb (by simp)
  refine ⟨hv2, q2, hrun, hl2, ?_⟩
  intro h hh
  rcases hprop h hh with hin | hgood
  · cases hin
  · exact hgood

/-- C7 witness: probing the two-node chain from its deepest node. -/
theorem prepare_haves_spec_witness :
    ∃ hv2 q2,
      prepare_haves testImpl 16 exChain [(true, 2, 1, 0)] ∅ = some (hv2, q2) ∧
      hv2.length ≤ 32 ∧
      ∀ h ∈ hv2, h ∉ (∅ : Finset Nat) ∧
        ∃ t d dist,
          ProbeReach testImpl exChain [(true, 2, 1, 0)] (t, d, h, dist) ∧
          (is_power_of_two dist || decide (d = 1)) = true :=
  prepare_haves_spec testImpl exChain (fun h => h) (by unfold WfState; decide)
    (by unfold TopoRank; decide) ∅ [(true, 2, 1, 0)] (by decide) 16 (by decide)

end Odyssey
